import Mathlib

/-!
Verification of the signal library (src/src/index.ts).

The library is a doubly linked list of handler bindings owned by a
dispatcher (class Signal), with an asynchronous wrapper (class
AsyncSignal).  We embed the heap of binding objects as an arena:
bindings are identified by their allocation index, object references
become indices, and the JavaScript field reads and writes are
translated statement by statement, re-reading every field at its use
site so that aliasing behaves exactly as in the source.

A handler function is represented by an identifier fid; an environment
maps fid to the list of observable actions the handler performs when
invoked (detach a binding, detach all, add a binding, call the shared
async resolver, raise an exception).  Dispatch loops are given explicit
fuel; on states satisfying the structural invariant the links strictly
increase, so any fuel of at least nodes.length is equivalent to the
unbounded while loop of the source.
-/

/-- Model of class SignalBindingImpl: one binding.  The handler fn is
represented by the identifier fid; the thisArg context value is opaque
payload with no control flow effect and is omitted.  The owner field is
a reference to the owning signal in the source; the claims concern a
single signal, so it is modelled as a Bool (true = owned by the signal
under consideration, false = null). -/
structure SignalBindingImpl where
  once : Bool
  fid : Nat
  next : Option Nat
  prev : Option Nat
  owner : Bool
deriving Repr, DecidableEq

/-- The record read from an unallocated arena slot: all fields at their
constructor defaults (next, prev, owner null; once false). -/
def dnode : SignalBindingImpl := ⟨false, 0, none, none, false⟩

/-- Model of class Signal: the arena of bindings ever allocated plus the
_head and _tail references and the enabled flag. -/
structure Signal where
  nodes : List SignalBindingImpl
  head : Option Nat
  tail : Option Nat
  enabled : Bool
deriving Repr, DecidableEq

/-- Read binding i (dereference a binding pointer). -/
def Signal.get (s : Signal) (i : Nat) : SignalBindingImpl :=
  (s.nodes[i]?).getD dnode

/-- Write binding i in place. -/
def Signal.setNode (s : Signal) (i : Nat) (n : SignalBindingImpl) : Signal :=
  { s with nodes := s.nodes.set i n }

/-- new Signal(): empty list, enabled. -/
def emptySignal : Signal := ⟨[], none, none, true⟩

/-- The while loop of Signal.handlers(): walk the next links from a
cursor, collecting binding ids, with explicit fuel. -/
def chainFuel (s : Signal) : Nat → Option Nat → List Nat
  | 0, _ => []
  | _ + 1, none => []
  | fuel + 1, some i => i :: chainFuel s fuel (s.get i).next

/-- Signal.handlers(): the bindings currently reachable from _head,
head to tail.  Fuel nodes.length suffices on invariant states. -/
def Signal.handlers (s : Signal) : List Nat :=
  chainFuel s s.nodes.length s.head

/-- Signal.hasAny(): true iff _head is non-null. -/
def Signal.hasAny (s : Signal) : Bool := s.head.isSome

/-- Signal.has(node): node.owner === this. -/
def Signal.has (s : Signal) (i : Nat) : Bool := (s.get i).owner

/-- new SignalBindingImpl(fn, once, thisArg): allocate a fresh binding
at the next free index, fields at their initial values. -/
def Signal.alloc (s : Signal) (onceFlag : Bool) (fid : Nat) : Signal × Nat :=
  (⟨s.nodes ++ [⟨onceFlag, fid, none, none, false⟩], s.head, s.tail, s.enabled⟩,
   s.nodes.length)

/-- Signal._addSignalBinding(node): append node i at the tail.
Mirrors the source: if _head is null set _head and _tail to node, else
set _tail.next to node (guarded on _tail), node.prev to _tail, _tail to
node; finally node.owner = this. -/
def Signal.addSignalBinding (s : Signal) (i : Nat) : Signal :=
  let s1 :=
    if s.head = none then
      { s with head := some i, tail := some i }
    else
      let sa :=
        match s.tail with
        | some t => s.setNode t { s.get t with next := some i }
        | none => s
      let sb := sa.setNode i { sa.get i with prev := s.tail }
      { sb with tail := some i }
  s1.setNode i { s1.get i with owner := true }

/-- Common body of Signal.add and Signal.once: allocate the binding and
append it via _addSignalBinding; returns the new binding id. -/
def Signal.addBinding (s : Signal) (onceFlag : Bool) (fid : Nat) : Signal × Nat :=
  let (s0, i) := s.alloc onceFlag fid
  (s0.addSignalBinding i, i)

/-- Signal.add(fn): bind a non-once handler; returns the new binding id. -/
def Signal.add (s : Signal) (fid : Nat) : Signal × Nat :=
  s.addBinding false fid

/-- Signal.once(fn): bind a once-only handler; returns the new binding id. -/
def Signal.once (s : Signal) (fid : Nat) : Signal × Nat :=
  s.addBinding true fid

/-- Signal.detach(node): statement by statement translation.
If node.owner is not this, return unchanged.  Otherwise:
if (node.prev) node.prev.next = node.next;
if (node.next) node.next.prev = node.prev;
if (node === _head) fix _head (and _tail when the list empties)
else if (node === _tail) set _tail to node.prev and null the new tail
next link; finally node.owner = null.  Every field is re-read from the
current heap at its use site, as in the source.  Note the detached node
own next and prev fields are never written. -/
def Signal.detach (s : Signal) (i : Nat) : Signal :=
  if (s.get i).owner = false then s
  else
    let s1 :=
      match (s.get i).prev with
      | some p => s.setNode p { s.get p with next := (s.get i).next }
      | none => s
    let s2 :=
      match (s1.get i).next with
      | some q => s1.setNode q { s1.get q with prev := (s1.get i).prev }
      | none => s1
    let s3 :=
      if s2.head = some i then
        { s2 with head := (s2.get i).next,
                  tail := if (s2.get i).next = none then none else s2.tail }
      else if s2.tail = some i then
        let s2a := { s2 with tail := (s2.get i).prev }
        match s2a.tail with
        | some t => s2a.setNode t { s2a.get t with next := none }
        | none => s2a
      else s2
    s3.setNode i { s3.get i with owner := false }

/-- SignalBindingImpl.detach(): if owner is null return false, else call
owner.detach(this) and return true. -/
def SignalBindingImpl.detach (s : Signal) (i : Nat) : Signal × Bool :=
  if (s.get i).owner = false then (s, false)
  else (Signal.detach s i, true)

/-- The while loop of Signal.detachAll(): walk the captured chain
clearing each owner; the next links are read from the evolving heap as
in the source (they are never modified by this loop). -/
def detachAllLoop : Nat → Signal → Option Nat → Signal
  | 0, s, _ => s
  | _ + 1, s, none => s
  | fuel + 1, s, some i =>
    let s1 := s.setNode i { s.get i with owner := false }
    detachAllLoop fuel s1 (s1.get i).next

/-- Signal.detachAll(): if the list is empty return; otherwise capture
_head, null _head and _tail, then clear every owner along the captured
chain.  Fuel nodes.length suffices on invariant states. -/
def Signal.detachAll (s : Signal) : Signal :=
  match s.head with
  | none => s
  | some n0 => detachAllLoop s.nodes.length { s with head := none, tail := none } (some n0)

/-- Observable actions a handler body can perform on the signal. -/
inductive Act where
  | detachB (i : Nat)
  | detachS (i : Nat)
  | detachAllA
  | addA (onceFlag : Bool) (fid : Nat)
  | resolveA
  | throwA
deriving Repr, DecidableEq

/-- One action: the resulting state and the number of calls made to the
shared async resolver, or none when the action raises an exception. -/
def runAct1 (s : Signal) : Act → Option (Signal × Nat)
  | .detachB i => some ((SignalBindingImpl.detach s i).1, 0)
  | .detachS i => some (Signal.detach s i, 0)
  | .detachAllA => some (Signal.detachAll s, 0)
  | .addA o f => some ((Signal.addBinding s o f).1, 0)
  | .resolveA => some (s, 1)
  | .throwA => none

/-- Run a handler body: final state, resolver call count, and whether an
exception escaped (mutations before the exception persist). -/
def runActs : Signal → List Act → Signal × Nat × Bool
  | s, [] => (s, 0, false)
  | s, a :: rest =>
    match runAct1 s a with
    | none => (s, 0, true)
    | some (s1, r) =>
      let (s2, r2, th) := runActs s1 rest
      (s2, r + r2, th)

/-- What dispatch passes to and observes about one handler invocation:
the binding id, the owner flag and the hasAny / handlers() views at the
moment of the call (after the once auto-detach), the dispatch arguments
forwarded to the handler, whether the shared async resolver was passed
as leading argument, and whether this invocation raised. -/
structure Event where
  id : Nat
  ownerAtCall : Bool
  hasAnyAtCall : Bool
  handlersAtCall : List Nat
  argsAtCall : List Nat
  resolverPassed : Bool
  threw : Bool
deriving Repr, DecidableEq

/-- Result of a dispatch: final state, invocation trace, total resolver
calls, and whether an exception propagated to the caller. -/
structure DResult where
  state : Signal
  trace : List Event
  resolves : Nat
  raised : Bool
deriving Repr, DecidableEq

/-- The while loop of Signal.dispatch: at the current node, if node.once
then this.detach(node) first; then invoke node.fn (the argument switch
of the source forwards the dispatch arguments positionally and is
semantically the identity on the argument list); finally continue with
node.next as read after the handler ran. -/
def dispatchLoop (env : Nat → List Act) (wres : Bool) (args : List Nat) :
    Nat → Signal → Option Nat → DResult
  | 0, s, _ => ⟨s, [], 0, false⟩
  | _ + 1, s, none => ⟨s, [], 0, false⟩
  | fuel + 1, s, some i =>
    let s1 := if (s.get i).once then Signal.detach s i else s
    let ev : Event :=
      ⟨i, (s1.get i).owner, s1.hasAny, s1.handlers, args, wres, false⟩
    match runActs s1 (env ((s1.get i).fid)) with
    | (s2, r, true) => ⟨s2, [{ ev with threw := true }], r, true⟩
    | (s2, r, false) =>
      let rest := dispatchLoop env wres args fuel s2 ((s2.get i).next)
      ⟨rest.state, ev :: rest.trace, r + rest.resolves, rest.raised⟩

/-- Signal.dispatch(...args): if not enabled return; if _head is null
return; otherwise run the loop from _head. -/
def Signal.dispatch (env : Nat → List Act) (wres : Bool) (args : List Nat)
    (fuel : Nat) (s : Signal) : DResult :=
  if s.enabled = false then ⟨s, [], 0, false⟩
  else
    match s.head with
    | none => ⟨s, [], 0, false⟩
    | some _ => dispatchLoop env wres args fuel s s.head

/-- Settlement state of the promise returned by AsyncSignal.dispatch. -/
inductive AsyncOutcome where
  | resolved
  | rejected
  | pending
deriving Repr, DecidableEq

/-- AsyncSignal.dispatch(...args): if not enabled, the async function
returns at once (its promise resolves).  Otherwise it awaits
new Promise(resolve => super.dispatch(resolve, ...args)): the promise
resolves iff the shared resolver was called at least once during the
synchronous walk; if the walk raised before any resolver call the
executor exception rejects the promise; with neither, the promise stays
pending forever and the await never completes. -/
def AsyncSignal.dispatch (env : Nat → List Act) (args : List Nat)
    (fuel : Nat) (s : Signal) : Signal × List Event × AsyncOutcome :=
  if s.enabled = false then (s, [], .resolved)
  else
    let r := Signal.dispatch env true args fuel s
    (r.state, r.trace,
      if 1 ≤ r.resolves then .resolved
      else if r.raised then .rejected
      else .pending)

/-- A sequence of dispatch calls (each with its own fuel and argument
list), collecting the concatenated invocation trace. -/
def dispatchSeq (env : Nat → List Act) (wres : Bool) :
    List (Nat × List Nat) → Signal → Signal × List Event
  | [], s => (s, [])
  | (fuel, args) :: rest, s =>
    let r := Signal.dispatch env wres args fuel s
    let (s2, tr) := dispatchSeq env wres rest r.state
    (s2, r.trace ++ tr)

/-- A sequence of add / once calls on an existing signal: each spec is
the once flag and the handler id passed to _addSignalBinding. -/
def buildGo (s : Signal) (specs : List (Bool × Nat)) : Signal :=
  specs.foldl (fun t p => (Signal.addBinding t p.1 p.2).1) s

/-- A signal freshly constructed and populated by a sequence of add /
once calls. -/
def buildSignal (specs : List (Bool × Nat)) : Signal :=
  buildGo emptySignal specs

/-! ## Arena access lemmas -/

theorem Signal.length_setNode (s : Signal) (i : Nat) (n : SignalBindingImpl) :
    (s.setNode i n).nodes.length = s.nodes.length := by
  simp [Signal.setNode]

theorem Signal.head_setNode (s : Signal) (i : Nat) (n : SignalBindingImpl) :
    (s.setNode i n).head = s.head := rfl

theorem Signal.tail_setNode (s : Signal) (i : Nat) (n : SignalBindingImpl) :
    (s.setNode i n).tail = s.tail := rfl

theorem Signal.enabled_setNode (s : Signal) (i : Nat) (n : SignalBindingImpl) :
    (s.setNode i n).enabled = s.enabled := rfl

theorem Signal.get_setNode_self (s : Signal) (i : Nat) (n : SignalBindingImpl)
    (h : i < s.nodes.length) : (s.setNode i n).get i = n := by
  simp [Signal.setNode, Signal.get, List.getElem?_set_self h]

theorem Signal.get_setNode_ne (s : Signal) (i : Nat) (n : SignalBindingImpl)
    (j : Nat) (h : i ≠ j) : (s.setNode i n).get j = s.get j := by
  simp [Signal.setNode, Signal.get, List.getElem?_set_ne h]

theorem Signal.get_out (s : Signal) (i : Nat) (h : s.nodes.length ≤ i) :
    s.get i = dnode := by
  simp [Signal.get, List.getElem?_len_le h]

theorem Signal.owner_out (s : Signal) (i : Nat) (h : (s.get i).owner = true) :
    i < s.nodes.length := by
  by_contra hc
  rw [Signal.get_out s i (Nat.le_of_not_lt hc)] at h
  simp [dnode] at h

/-! ## The structural list invariant -/

/-- Walking the segment X of the list: starting with previous node pv
and cursor cur, the cursor points at the successive elements of X
(whose prev fields point back), and after X the walk stands at
previous node pe and cursor ce. -/
def dseg (s : Signal) : List Nat → Option Nat → Option Nat → Option Nat → Option Nat → Prop
  | [], pv, cur, pe, ce => pe = pv ∧ ce = cur
  | i :: X, pv, cur, pe, ce =>
    cur = some i ∧ (s.get i).prev = pv ∧ dseg s X (some i) ((s.get i).next) pe ce

/-- The structural invariant of a Signal, relative to the list L of
binding ids currently attached, in head to tail order: the next and
prev links spell out L exactly (so the list is acyclic and traversal
from head reaches tail then null, and head and tail are both null iff
L is empty); a binding has non-null owner iff it is in L; and every
next link strictly increases and stays inside the arena (allocation
order), which is what makes every walk terminate. -/
structure WF (s : Signal) (L : List Nat) : Prop where
  chain : dseg s L none s.head L.getLast? none
  tailEq : s.tail = L.getLast?
  ownerIff : ∀ i, ((s.get i).owner = true) ↔ i ∈ L
  inc : ∀ i j, (s.get i).next = some j → i < j ∧ j < s.nodes.length

theorem dseg_append (s : Signal) (X Y : List Nat) (pv cur pe ce : Option Nat) :
    dseg s (X ++ Y) pv cur pe ce ↔
      ∃ pm cm, dseg s X pv cur pm cm ∧ dseg s Y pm cm pe ce := by
  induction X generalizing pv cur with
  | nil =>
    constructor
    · intro h
      exact ⟨pv, cur, ⟨rfl, rfl⟩, h⟩
    · rintro ⟨pm, cm, ⟨h1, h2⟩, h⟩
      rwa [h1, h2] at h
  | cons i X ih =>
    simp only [List.cons_append, dseg]
    constructor
    · rintro ⟨h1, h2, h3⟩
      obtain ⟨pm, cm, ha, hb⟩ := (ih _ _).mp h3
      exact ⟨pm, cm, ⟨h1, h2, ha⟩, hb⟩
    · rintro ⟨pm, cm, ⟨h1, h2, ha⟩, hb⟩
      exact ⟨h1, h2, (ih _ _).mpr ⟨pm, cm, ha, hb⟩⟩

/-- A dseg walk only depends on the prev and next fields of the nodes
of the segment. -/
theorem dseg_congr (s s2 : Signal) (X : List Nat) (pv cur pe ce : Option Nat) :
    (∀ j ∈ X, (s2.get j).prev = (s.get j).prev ∧ (s2.get j).next = (s.get j).next) →
    dseg s X pv cur pe ce → dseg s2 X pv cur pe ce := by
  induction X generalizing pv cur with
  | nil => exact fun _ h => h
  | cons i X ih =>
    rintro h ⟨h1, h2, h3⟩
    obtain ⟨hp, hn⟩ := h i (List.mem_cons_self i X)
    refine ⟨h1, by rw [hp]; exact h2, ?_⟩
    rw [hn]
    exact ih _ _ (fun j hj => h j (List.mem_cons_of_mem i hj)) h3

/-- Along a dseg, consecutive elements are linked by next. -/
theorem dseg_chain_lt (s : Signal)
    (hinc : ∀ i j, (s.get i).next = some j → i < j ∧ j < s.nodes.length)
    (X : List Nat) (pv cur pe ce : Option Nat) :
    dseg s X pv cur pe ce → List.Chain' (· < ·) X := by
  induction X generalizing pv cur with
  | nil => intro _; exact List.chain'_nil
  | cons i X ih =>
    rintro ⟨h1, h2, h3⟩
    have hX : List.Chain' (· < ·) X := ih _ _ h3
    cases X with
    | nil => exact List.chain'_singleton i
    | cons b X2 =>
      obtain ⟨hb, _, _⟩ := h3
      exact List.chain'_cons.mpr ⟨(hinc i b hb).1, hX⟩

theorem chain_lt_nodup (L : List Nat) (h : List.Chain' (· < ·) L) : L.Nodup := by
  have hp : List.Pairwise (· < ·) L := List.chain'_iff_pairwise.mp h
  exact hp.nodup

theorem WF.nodup (s : Signal) (L : List Nat) (h : WF s L) : L.Nodup :=
  chain_lt_nodup L (dseg_chain_lt s h.inc L none s.head L.getLast? none h.chain)

theorem WF.mem_lt (s : Signal) (L : List Nat) (h : WF s L) (i : Nat) (hi : i ∈ L) :
    i < s.nodes.length :=
  Signal.owner_out s i ((h.ownerIff i).mpr hi)

theorem WF.headEq (s : Signal) (L : List Nat) (h : WF s L) : s.head = L.head? := by
  cases L with
  | nil => exact (h.chain).2.symm
  | cons i X => exact (h.chain).1

theorem length_le_of_bounded (L : List Nat) (n : Nat) (hnd : L.Nodup)
    (hb : ∀ x ∈ L, x < n) : L.length ≤ n := by
  classical
  have h1 : L.toFinset.card = L.length := List.toFinset_card_of_nodup hnd
  have h2 : L.toFinset ⊆ Finset.range n := by
    intro x hx
    simp only [List.mem_toFinset] at hx
    simpa using hb x hx
  have h3 := Finset.card_le_card h2
  rw [h1, Finset.card_range] at h3
  exact h3

theorem WF.length_le (s : Signal) (L : List Nat) (h : WF s L) :
    L.length ≤ s.nodes.length :=
  length_le_of_bounded L s.nodes.length (h.nodup s L) (h.mem_lt s L)

/-- A fuelled chain walk follows a dseg exactly once the fuel covers the
segment length (the walk ends on a null cursor). -/
theorem chainFuel_of_dseg (s : Signal) (X : List Nat) (pv cur pe : Option Nat)
    (h : dseg s X pv cur pe none) (fuel : Nat) (hf : X.length ≤ fuel) :
    chainFuel s fuel cur = X := by
  induction X generalizing pv cur fuel with
  | nil =>
    obtain ⟨_, h2⟩ := h
    cases fuel with
    | zero => simp [chainFuel]
    | succ f => rw [← h2]; simp [chainFuel]
  | cons i X ih =>
    obtain ⟨h1, _, h3⟩ := h
    cases fuel with
    | zero => exact absurd hf (by simp)
    | succ f =>
      rw [h1]
      simp only [chainFuel]
      rw [ih _ _ h3 f (Nat.le_of_succ_le_succ (by simpa using hf))]

/-- On an invariant state, handlers() returns exactly the attached list
in head to tail order. -/
theorem Signal.handlers_eq (s : Signal) (L : List Nat) (h : WF s L) :
    s.handlers = L :=
  chainFuel_of_dseg s L none s.head L.getLast? h.chain s.nodes.length (h.length_le s L)

theorem WF_empty : WF emptySignal [] := by
  refine ⟨⟨rfl, rfl⟩, rfl, ?_, ?_⟩
  · intro i
    simp [emptySignal, Signal.get, dnode]
  · intro i j h
    simp [emptySignal, Signal.get, dnode] at h

/-! ## dseg utilities -/

theorem dseg_end_prev (s : Signal) (X : List Nat) (pv cur pe ce : Option Nat) :
    dseg s X pv cur pe ce → pe = X.getLast?.or pv := by
  induction X generalizing pv cur with
  | nil => rintro ⟨h1, _⟩; simp [h1]
  | cons i X ih =>
    rintro ⟨_, _, h3⟩
    have := ih _ _ h3
    cases X with
    | nil => simpa using this
    | cons b Y => simpa [List.getLast?] using this

/-- Unpack the invariant at a chosen list position. -/
theorem WF_split (s : Signal) (A : List Nat) (i : Nat) (B : List Nat)
    (h : WF s (A ++ i :: B)) :
    (s.get i).owner = true ∧
    (s.get i).prev = A.getLast? ∧
    (s.get i).next = B.head? ∧
    dseg s A none s.head A.getLast? (some i) ∧
    dseg s B (some i) ((s.get i).next) ((A ++ i :: B).getLast?) none := by
  have hown : (s.get i).owner = true :=
    (h.ownerIff i).mpr (by simp)
  obtain ⟨pm, cm, hA, hiB⟩ := (dseg_append s A (i :: B) none s.head _ none).mp h.chain
  obtain ⟨hcm, hprev, hB⟩ := hiB
  have hpm : pm = A.getLast? := by
    have := dseg_end_prev s A none s.head pm cm hA
    simpa [Option.or_none] using this
  have hnext : (s.get i).next = B.head? := by
    cases B with
    | nil => exact hB.2.symm
    | cons q B2 => exact hB.1
  subst hcm
  rw [hpm] at hA hprev
  exact ⟨hown, hprev, hnext, hA, hB⟩

/-! ## Characterization of add / once -/

theorem Signal.alloc_get_old (s : Signal) (o : Bool) (f j : Nat)
    (hj : j ≠ s.nodes.length) : (s.alloc o f).1.get j = s.get j := by
  unfold Signal.alloc Signal.get
  simp only []
  rcases Nat.lt_or_ge j s.nodes.length with hlt | hge
  · rw [List.getElem?_append]
    simp [hlt]
  · have h1 : s.nodes.length < j := Nat.lt_of_le_of_ne hge (Ne.symm hj)
    rw [List.getElem?_append_right hge]
    have h2 : (1 : Nat) ≤ j - s.nodes.length := by omega
    rw [List.getElem?_len_le (by simpa using h2), List.getElem?_len_le (by omega)]

theorem Signal.alloc_get_new (s : Signal) (o : Bool) (f : Nat) :
    (s.alloc o f).1.get s.nodes.length = ⟨o, f, none, none, false⟩ := by
  unfold Signal.alloc Signal.get
  simp [List.getElem?_concat_length]

theorem Signal.alloc_len (s : Signal) (o : Bool) (f : Nat) :
    (s.alloc o f).1.nodes.length = s.nodes.length + 1 := by
  simp [Signal.alloc]

/-- Explicit form of addBinding when the list is empty (the _head null
branch of _addSignalBinding): the fresh binding keeps null prev. -/
theorem Signal.addBinding_eq_empty (s : Signal) (o : Bool) (f : Nat)
    (hhead : s.head = none) :
    (s.addBinding o f).1 =
      ⟨s.nodes ++ [⟨o, f, none, none, true⟩], some s.nodes.length,
        some s.nodes.length, s.enabled⟩ := by
  unfold Signal.addBinding Signal.alloc Signal.addSignalBinding Signal.setNode Signal.get
  simp [hhead, List.getElem?_concat_length, List.set_append]

/-- Explicit form of addBinding when the list is non-empty: the old tail
gets next pointed at the fresh binding, which chains back via prev. -/
theorem Signal.addBinding_eq_cons (s : Signal) (o : Bool) (f t : Nat)
    (hhead : s.head ≠ none) (ht : s.tail = some t) (htlt : t < s.nodes.length) :
    (s.addBinding o f).1 =
      ⟨(s.nodes.set t { s.get t with next := some s.nodes.length }) ++
          [⟨o, f, none, some t, true⟩],
        s.head, some s.nodes.length, s.enabled⟩ := by
  unfold Signal.addBinding Signal.alloc Signal.addSignalBinding Signal.setNode Signal.get
  simp only [ht, hhead, if_neg hhead]
  have h1 : (s.nodes ++ [(⟨o, f, none, none, false⟩ : SignalBindingImpl)])[t]? = s.nodes[t]? := by
    rw [List.getElem?_append]
    simp [htlt]
  have h2 : ((s.nodes ++ [(⟨o, f, none, none, false⟩ : SignalBindingImpl)]).set t
      { (s.nodes[t]?.getD dnode) with next := some s.nodes.length }) =
      (s.nodes.set t { (s.nodes[t]?.getD dnode) with next := some s.nodes.length }) ++
        [(⟨o, f, none, none, false⟩ : SignalBindingImpl)] := by
    rw [List.set_append]
    simp [htlt]
  simp [h1, h2, List.getElem?_concat_length, List.set_append]

/-- Helper facts about a WF state with non-empty list L = A ++ [t]. -/
theorem WF_tail_facts (s : Signal) (A : List Nat) (t : Nat)
    (hWF : WF s (A ++ [t])) :
    s.tail = some t ∧ s.head ≠ none ∧ t < s.nodes.length ∧ t ∉ A := by
  have htail : s.tail = some t := by
    rw [hWF.tailEq, List.getLast?_concat]
  have hmem : t ∈ A ++ [t] := by simp
  have htlt : t < s.nodes.length := hWF.mem_lt s _ t hmem
  have hnd := hWF.nodup s _
  have htA : t ∉ A := by
    intro hc
    have : ¬ (A ++ [t]).Nodup := by
      intro hnd2
      have := (List.nodup_append.mp hnd2).2.2
      exact this hc (by simp)
    exact this hnd
  refine ⟨htail, ?_, htlt, htA⟩
  intro hc
  have := hWF.headEq s _
  rw [hc] at this
  have : A ++ [t] = [] := List.head?_eq_none_iff.mp this.symm
  simp at this

/-- add / once preserve the invariant, appending the fresh binding id
at the tail. -/
theorem Signal.addBinding_WF (s : Signal) (L : List Nat) (o : Bool) (f : Nat)
    (hWF : WF s L) : WF (s.addBinding o f).1 (L ++ [s.nodes.length]) := by
  rcases List.eq_nil_or_concat L with hL | ⟨A, t, hL⟩
  · subst hL
    have hhead : s.head = none := by
      rw [hWF.headEq]; rfl
    rw [Signal.addBinding_eq_empty s o f hhead]
    set n := s.nodes.length with hn
    have hget : ∀ j, (Signal.get ⟨s.nodes ++ [⟨o, f, none, none, true⟩], some n, some n, s.enabled⟩ j) =
        (if j = n then ⟨o, f, none, none, true⟩ else s.get j) := by
      intro j
      unfold Signal.get
      by_cases hj : j = n
      · subst hj
        simp [List.getElem?_concat_length]
      · simp only [if_neg hj]
        rcases Nat.lt_or_ge j n with hlt | hge
        · rw [List.getElem?_append]
          simp [hlt]
        · have h1 : n < j := Nat.lt_of_le_of_ne hge (Ne.symm hj)
          rw [List.getElem?_append_right hge, List.getElem?_len_le (by simp; omega),
            List.getElem?_len_le (by omega)]
    refine ⟨?_, ?_, ?_, ?_⟩
    · show dseg _ ([] ++ [n]) none (some n) (([] ++ [n]).getLast?) none
      simp only [List.nil_append]
      refine ⟨rfl, ?_, ?_, ?_⟩
      · rw [hget n]
        simp
      · simp
      · rw [hget n]
        simp
    · simp
    · intro j
      rw [hget j]
      by_cases hj : j = n
      · subst hj; simp
      · simp only [if_neg hj]
        constructor
        · intro how
          have hmem := (hWF.ownerIff j).mp how
          simp at hmem
        · intro hc
          simp at hc
          exact absurd hc hj
    · intro i j hnext
      rw [hget i] at hnext
      by_cases hi : i = n
      · rw [if_pos hi] at hnext; simp at hnext
      · rw [if_neg hi] at hnext
        have := hWF.inc i j hnext
        constructor
        · exact this.1
        · show j < (s.nodes ++ [(⟨o, f, none, none, true⟩ : SignalBindingImpl)]).length
          simp
          omega
  · rw [List.concat_eq_append] at hL
    subst hL
    obtain ⟨htail, hhead, htlt, htA⟩ := WF_tail_facts s A t hWF
    rw [Signal.addBinding_eq_cons s o f t hhead htail htlt]
    set n := s.nodes.length with hn
    set vt : SignalBindingImpl := { s.get t with next := some n } with hvt
    set node2 : SignalBindingImpl := (⟨o, f, none, some t, true⟩ : SignalBindingImpl) with hnode2
    set E : Signal := ⟨s.nodes.set t vt ++ [node2], s.head, some n, s.enabled⟩ with hE
    have hlen : E.nodes.length = n + 1 := by simp [hE]
    have hget : ∀ j, E.get j =
        (if j = n then node2 else if j = t then vt else s.get j) := by
      intro j
      unfold Signal.get
      by_cases hj : j = n
      · subst hj
        rw [if_pos rfl]
        show (s.nodes.set t vt ++ [node2])[n]?.getD dnode = node2
        have hls : (s.nodes.set t vt).length = n := by simp
        rw [← hls, List.getElem?_concat_length]
        rfl
      · rw [if_neg hj]
        rcases Nat.lt_or_ge j n with hlt | hge
        · show (s.nodes.set t vt ++ [node2])[j]?.getD dnode = _
          rw [List.getElem?_append]
          have hjl : j < (s.nodes.set t vt).length := by simp [hlt]
          rw [if_pos hjl]
          by_cases hjt : j = t
          · subst hjt
            rw [if_pos rfl, List.getElem?_set_self (by omega)]
            rfl
          · rw [if_neg hjt, List.getElem?_set_ne (Ne.symm hjt)]
        · have h1 : n < j := Nat.lt_of_le_of_ne hge (Ne.symm hj)
          have hjt : j ≠ t := by omega
          rw [if_neg hjt]
          show (s.nodes.set t vt ++ [node2])[j]?.getD dnode = _
          rw [List.getElem?_len_le (by simp; omega), List.getElem?_len_le (by omega)]
  -- invariant components
    obtain ⟨hownt, hprevt, hnextt, hA, _⟩ := WF_split s A t [] hWF
    have hmemlt : ∀ j ∈ A, j < n := by
      intro j hj
      exact hWF.mem_lt s _ j (by simp [hj])
    refine ⟨?_, ?_, ?_, ?_⟩
    · show dseg E (A ++ [t] ++ [n]) none E.head ((A ++ [t] ++ [n]).getLast?) none
      have hEA : dseg E A none E.head A.getLast? (some t) := by
        refine dseg_congr s E A none s.head A.getLast? (some t) ?_ hA
        intro j hj
        have hjt : j ≠ t := fun hc => htA (hc ▸ hj)
        have hjn : j ≠ n := by have := hmemlt j hj; omega
        rw [hget j, if_neg hjn, if_neg hjt]
        exact ⟨rfl, rfl⟩
      rw [List.append_assoc]
      refine (dseg_append E A ([t] ++ [n]) none E.head _ none).mpr
        ⟨A.getLast?, some t, hEA, ?_⟩
      have htn : t ≠ n := by omega
      refine ⟨rfl, ?_, ?_⟩
      · rw [hget t, if_neg htn, if_pos rfl, hvt]
        exact hprevt
      · rw [hget t, if_neg htn, if_pos rfl]
        show dseg E [n] (some t) (some n) _ none
        refine ⟨rfl, ?_, ?_⟩
        · rw [hget n, if_pos rfl]
        · rw [hget n, if_pos rfl]
          show dseg E [] (some n) none _ none
          simp [dseg]
    · show E.tail = ((A ++ [t]) ++ [n]).getLast?
      rw [List.getLast?_concat]
    · intro j
      rw [hget j]
      by_cases hjn : j = n
      · subst hjn
        simp [hnode2]
      · rw [if_neg hjn]
        by_cases hjt : j = t
        · subst hjt
          rw [if_pos rfl]
          constructor
          · intro _; simp
          · intro _
            show vt.owner = true
            rw [hvt]
            exact hownt
        · rw [if_neg hjt]
          rw [hWF.ownerIff j]
          constructor
          · intro hm
            rcases List.mem_append.mp hm with h | h
            · simp [h]
            · simp at h
              exact absurd h hjt
          · intro hm
            rcases List.mem_append.mp hm with h | h
            · exact h
            · simp at h
              exact absurd h hjn
    · intro i j hnext
      rw [hget i] at hnext
      by_cases hin : i = n
      · rw [if_pos hin] at hnext
        simp [hnode2] at hnext
      · rw [if_neg hin] at hnext
        by_cases hit : i = t
        · rw [if_pos hit] at hnext
          simp [hvt] at hnext
          subst hnext
          rw [hlen]
          omega
        · rw [if_neg hit] at hnext
          have := hWF.inc i j hnext
          rw [hlen]
          omega

/-- Explicit form of detach on the only element of a singleton list. -/
theorem Signal.detach_eq_single (s : Signal) (i : Nat)
    (hown : (s.get i).owner = true) (hprev : (s.get i).prev = none)
    (hnext : (s.get i).next = none) (hhead : s.head = some i) :
    Signal.detach s i =
      ⟨s.nodes.set i { s.get i with owner := false }, none, none, s.enabled⟩ := by
  unfold Signal.detach
  rw [hown]
  simp only [Bool.true_eq_false, if_false, hprev, hnext, hhead, if_pos rfl, Signal.setNode,
    eq_self_iff_true, if_true]
  have hgeq : (⟨s.nodes, none, none, s.enabled⟩ : Signal).get i = s.get i := rfl
  rw [hgeq, hnext, hprev]


theorem Signal.get_mk (ns : List SignalBindingImpl) (h t : Option Nat) (e : Bool) (i : Nat) :
    (Signal.mk ns h t e).get i = ns[i]?.getD dnode := rfl

theorem Signal.get_fold (s : Signal) (i : Nat) : s.nodes[i]?.getD dnode = s.get i := rfl

/-- Explicit form of detach on the head of a list with a successor q. -/
theorem Signal.detach_eq_headcons (s : Signal) (i q : Nat)
    (hown : (s.get i).owner = true) (hprev : (s.get i).prev = none)
    (hnext : (s.get i).next = some q) (hhead : s.head = some i)
    (hiq : i ≠ q) :
    Signal.detach s i =
      ⟨(s.nodes.set q { s.get q with prev := none }).set i { s.get i with owner := false },
        some q, s.tail, s.enabled⟩ := by
  unfold Signal.detach
  rw [hown]
  simp only [Bool.true_eq_false, if_false, hprev, hnext, Signal.setNode, Signal.get_mk,
    Signal.head_setNode, Signal.tail_setNode]
  simp only [List.getElem?_set_ne (Ne.symm hiq), Signal.get_fold, hnext, hhead,
    eq_self_iff_true, if_true]
  simp only [Signal.get_mk, List.getElem?_set_ne (Ne.symm hiq), Signal.get_fold]
  rw [hnext, hprev]
  simp

/-- Explicit form of detach on the tail of a list with a predecessor p. -/
theorem Signal.detach_eq_tailsnoc (s : Signal) (i p : Nat)
    (hown : (s.get i).owner = true) (hprev : (s.get i).prev = some p)
    (hnext : (s.get i).next = none) (hheadne : s.head ≠ some i)
    (htail : s.tail = some i) (hip : i ≠ p) (hplt : p < s.nodes.length) :
    Signal.detach s i =
      ⟨(s.nodes.set p { s.get p with next := none }).set i { s.get i with owner := false },
        s.head, some p, s.enabled⟩ := by
  unfold Signal.detach
  rw [hown]
  simp only [Bool.true_eq_false, if_false, hprev, hnext, Signal.setNode, Signal.get_mk,
    Signal.head_setNode, Signal.tail_setNode]
  simp only [List.getElem?_set_ne (Ne.symm hip), Signal.get_fold, hnext, if_neg hheadne, htail,
    eq_self_iff_true, if_true]
  simp only [Signal.get_mk, List.getElem?_set_ne (Ne.symm hip), List.getElem?_set_self hplt,
    Signal.get_fold, List.set_set, hprev]
  simp
  rw [hnext]

/-- Explicit form of detach on an interior node with predecessor p and
successor q. -/
theorem Signal.detach_eq_mid (s : Signal) (i p q : Nat)
    (hown : (s.get i).owner = true) (hprev : (s.get i).prev = some p)
    (hnext : (s.get i).next = some q) (hheadne : s.head ≠ some i)
    (htailne : s.tail ≠ some i) (hip : i ≠ p) (hiq : i ≠ q) (hpq : p ≠ q) :
    Signal.detach s i =
      ⟨((s.nodes.set p { s.get p with next := some q }).set q
          { s.get q with prev := some p }).set i { s.get i with owner := false },
        s.head, s.tail, s.enabled⟩ := by
  unfold Signal.detach
  rw [hown]
  simp only [Bool.true_eq_false, if_false, hprev, hnext, Signal.setNode, Signal.get_mk,
    Signal.head_setNode, Signal.tail_setNode]
  simp only [List.getElem?_set_ne (Ne.symm hip), List.getElem?_set_ne hpq,
    Signal.get_fold, hnext, hprev, if_neg hheadne, if_neg htailne]
  simp only [Signal.get_mk, List.getElem?_set_ne (Ne.symm hip), List.getElem?_set_ne (Ne.symm hiq),
    Signal.get_fold, hnext, hprev]

theorem nodup_split (A : List Nat) (i : Nat) (B : List Nat)
    (h : (A ++ i :: B).Nodup) : i ∉ A ∧ i ∉ B ∧ ∀ a ∈ A, a ∉ B := by
  rw [List.nodup_append] at h
  obtain ⟨h1, h2, h3⟩ := h
  rw [List.nodup_cons] at h2
  exact ⟨fun hc => h3 hc (by simp), h2.1, fun a ha hc => h3 ha (by simp [hc])⟩

/-- Lookup through a set on the underlying arena list. -/
theorem getD_set (l : List SignalBindingImpl) (i j : Nat) (v : SignalBindingImpl) :
    ((l.set i v)[j]?.getD dnode) =
      if i = j ∧ i < l.length then v else l[j]?.getD dnode := by
  rw [List.getElem?_set]
  by_cases hij : i = j
  · subst hij
    by_cases hlt : i < l.length
    · simp [hlt]
    · simp [hlt, List.getElem?_len_le (Nat.le_of_not_lt hlt)]
  · simp [hij]

/-- Detach of the single element of a singleton list. -/
theorem Signal.detach_case1 (s : Signal) (i : Nat) (hWF : WF s [i]) :
    WF (Signal.detach s i) [] ∧
    (∀ j, (Signal.detach s i).get j =
      (if j = i then { s.get i with owner := false } else s.get j)) ∧
    (Signal.detach s i).head = none ∧
    (Signal.detach s i).tail = none ∧
    (Signal.detach s i).enabled = s.enabled ∧
    (Signal.detach s i).nodes.length = s.nodes.length := by
  obtain ⟨hown, hprev, hnext, _, _⟩ := WF_split s [] i [] hWF
  have hilt : i < s.nodes.length := hWF.mem_lt s _ i (by simp)
  have hhead : s.head = some i := by
    rw [hWF.headEq]; rfl
  rw [Signal.detach_eq_single s i hown hprev hnext hhead]
  have hget : ∀ j, (Signal.get ⟨s.nodes.set i { s.get i with owner := false }, none, none, s.enabled⟩ j) =
      (if j = i then { s.get i with owner := false } else s.get j) := by
    intro j
    rw [Signal.get_mk, getD_set]
    by_cases hj : j = i
    · subst hj
      simp [hilt]
    · simp only [if_neg (fun hc : i = j => hj hc.symm)]
      rw [Signal.get_fold]
      simp [Ne.symm hj, hj]
  refine ⟨⟨⟨rfl, rfl⟩, rfl, ?_, ?_⟩, hget, rfl, rfl, rfl, by simp⟩
  · intro j
    rw [hget j]
    by_cases hj : j = i
    · subst hj
      simp
    · rw [if_neg hj]
      simp only [List.not_mem_nil, iff_false]
      intro hc
      have := (hWF.ownerIff j).mp hc
      simp at this
      exact hj this
  · intro a b hnext2
    rw [hget a] at hnext2
    by_cases ha : a = i
    · rw [if_pos ha] at hnext2
      subst ha
      have := hWF.inc a b hnext2
      simpa using this
    · rw [if_neg ha] at hnext2
      have := hWF.inc a b hnext2
      simpa using this

/-- Detach of the head of a list with at least two elements. -/
theorem Signal.detach_case2 (s : Signal) (i q : Nat) (B2 : List Nat)
    (hWF : WF s (i :: q :: B2)) :
    WF (Signal.detach s i) (q :: B2) ∧
    (∀ j, (Signal.detach s i).get j =
      (if j = i then { s.get i with owner := false }
       else if j = q then { s.get q with prev := none } else s.get j)) ∧
    (Signal.detach s i).head = some q ∧
    (Signal.detach s i).tail = s.tail ∧
    (Signal.detach s i).enabled = s.enabled ∧
    (Signal.detach s i).nodes.length = s.nodes.length := by
  obtain ⟨hown, hprev, hnext, _, hB⟩ := WF_split s [] i (q :: B2) hWF
  have hnd := hWF.nodup s _
  obtain ⟨_, hiB, _⟩ := nodup_split [] i (q :: B2) hnd
  have hiq : i ≠ q := fun hc => hiB (by simp [hc])
  have hiB2 : i ∉ B2 := fun hc => hiB (by simp [hc])
  have hqB2 : q ∉ B2 := by
    have : (q :: B2).Nodup := (List.nodup_cons.mp hnd).2
    exact (List.nodup_cons.mp this).1
  have hilt : i < s.nodes.length := hWF.mem_lt s _ i (by simp)
  have hqlt : q < s.nodes.length := hWF.mem_lt s _ q (by simp)
  have hhead : s.head = some i := by
    rw [hWF.headEq]; rfl
  have hnextq : (s.get i).next = some q := by
    rw [hnext]; rfl
  rw [Signal.detach_eq_headcons s i q hown hprev hnextq hhead hiq]
  set vq : SignalBindingImpl := { s.get q with prev := none } with hvq
  set vi : SignalBindingImpl := { s.get i with owner := false } with hvi
  have hget : ∀ j, (Signal.get ⟨(s.nodes.set q vq).set i vi, some q, s.tail, s.enabled⟩ j) =
      (if j = i then vi else if j = q then vq else s.get j) := by
    intro j
    rw [Signal.get_mk, getD_set, getD_set]
    by_cases hj : j = i
    · subst hj
      simp [hilt]
    · rw [if_neg (by simp [Ne.symm hj])]
      by_cases hjq : j = q
      · subst hjq
        simp [hqlt, if_neg hj]
      · rw [if_neg (by simp [Ne.symm hjq]), if_neg hj, if_neg hjq, Signal.get_fold]
  have hB2 : dseg s B2 (some q) ((s.get q).next) ((i :: q :: B2).getLast?) none := by
    rw [hnextq] at hB
    exact hB.2.2
  refine ⟨⟨?_, ?_, ?_, ?_⟩, hget, rfl, rfl, rfl, by simp⟩
  · -- chain
    show dseg _ (q :: B2) none (⟨(s.nodes.set q vq).set i vi, some q, s.tail, s.enabled⟩ : Signal).head _ none
    refine ⟨rfl, ?_, ?_⟩
    · rw [hget q, if_neg (Ne.symm hiq), if_pos rfl, hvq]
    · rw [hget q, if_neg (Ne.symm hiq), if_pos rfl]
      have hnq : vq.next = (s.get q).next := rfl
      rw [hnq]
      have hlast : (q :: B2).getLast? = (i :: q :: B2).getLast? := by
        rw [List.getLast?_cons_cons]
      rw [hlast]
      refine dseg_congr s _ B2 (some q) ((s.get q).next) _ none ?_ hB2
      intro j hj
      have hji : j ≠ i := fun hc => hiB2 (hc ▸ hj)
      have hjq : j ≠ q := fun hc => hqB2 (hc ▸ hj)
      rw [hget j, if_neg hji, if_neg hjq]
      exact ⟨rfl, rfl⟩
  · show s.tail = (q :: B2).getLast?
    rw [hWF.tailEq, List.getLast?_cons_cons]
  · intro j
    rw [hget j]
    by_cases hj : j = i
    · subst hj
      rw [if_pos rfl]
      simp only [hvi]
      constructor
      · intro hc
        exact absurd hc (by simp)
      · intro hc
        rcases List.mem_cons.mp hc with h | h
        · exact absurd h hiq
        · exact absurd h hiB2
    · rw [if_neg hj]
      by_cases hjq : j = q
      · subst hjq
        rw [if_pos rfl]
        constructor
        · intro _
          simp
        · intro _
          show (s.get j).owner = true
          exact (hWF.ownerIff j).mpr (by simp)
      · rw [if_neg hjq]
        rw [hWF.ownerIff j]
        constructor
        · intro hm
          rcases List.mem_cons.mp hm with h | h
          · exact absurd h hj
          · exact h
        · intro hm
          exact List.mem_cons.mpr (Or.inr hm)
  · intro a b hab
    rw [hget a] at hab
    have hlen : (⟨(s.nodes.set q vq).set i vi, some q, s.tail, s.enabled⟩ : Signal).nodes.length = s.nodes.length := by
      simp
    rw [hlen]
    by_cases ha : a = i
    · rw [if_pos ha] at hab
      subst ha
      exact hWF.inc a b hab
    · rw [if_neg ha] at hab
      by_cases haq : a = q
      · rw [if_pos haq] at hab
        subst haq
        exact hWF.inc a b hab
      · rw [if_neg haq] at hab
        exact hWF.inc a b hab

theorem WF_head_ne (s : Signal) (A : List Nat) (i : Nat) (B : List Nat)
    (hWF : WF s (A ++ i :: B)) (hA : A ≠ []) : s.head ≠ some i := by
  cases A with
  | nil => exact absurd rfl hA
  | cons a A2 =>
    have hhd : s.head = some a := by
      rw [hWF.headEq]; rfl
    have hnd := hWF.nodup s _
    obtain ⟨hiA, _, _⟩ := nodup_split (a :: A2) i B hnd
    intro hc
    rw [hhd] at hc
    injection hc with h
    exact hiA (by simp [← h])

theorem WF_tail_ne (s : Signal) (A : List Nat) (i : Nat) (B : List Nat)
    (hWF : WF s (A ++ i :: B)) (hB : B ≠ []) : s.tail ≠ some i := by
  have hnd := hWF.nodup s _
  obtain ⟨_, hiB, _⟩ := nodup_split A i B hnd
  have htl : s.tail = B.getLast? := by
    rw [hWF.tailEq, List.getLast?_append]
    cases B with
    | nil => exact absurd rfl hB
    | cons b B2 =>
      rw [List.getLast?_cons_cons]
      cases h : (b :: B2).getLast? with
      | none => exact absurd (List.getLast?_eq_none_iff.mp h) (by simp)
      | some v => rfl
  intro hc
  rw [htl] at hc
  cases hBv : B with
  | nil => exact hB hBv
  | cons b B2 =>
    rw [hBv] at hc
    have := List.mem_of_mem_getLast? hc
    rw [← hBv] at this
    exact hiB this

/-- Detach of the last element of a list with a predecessor. -/
theorem Signal.detach_case3 (s : Signal) (A2 : List Nat) (p i : Nat)
    (hWF : WF s ((A2 ++ [p]) ++ i :: [])) :
    WF (Signal.detach s i) (A2 ++ [p]) ∧
    (∀ j, (Signal.detach s i).get j =
      (if j = i then { s.get i with owner := false }
       else if j = p then { s.get p with next := none } else s.get j)) ∧
    (Signal.detach s i).head = s.head ∧
    (Signal.detach s i).tail = some p ∧
    (Signal.detach s i).enabled = s.enabled ∧
    (Signal.detach s i).nodes.length = s.nodes.length := by
  obtain ⟨hown, hprev, hnext, hA, _⟩ := WF_split s (A2 ++ [p]) i [] hWF
  have hnd := hWF.nodup s _
  obtain ⟨hiA, _, _⟩ := nodup_split (A2 ++ [p]) i [] hnd
  have hip : i ≠ p := fun hc => hiA (by simp [hc])
  have hiA2 : i ∉ A2 := fun hc => hiA (by simp [hc])
  have hpA2 : p ∉ A2 := by
    have h1 : (A2 ++ [p]).Nodup := (List.nodup_append.mp hnd).1
    obtain ⟨_, _, hd⟩ := List.nodup_append.mp h1
    intro hc
    exact hd hc (by simp)
  have hilt : i < s.nodes.length := hWF.mem_lt s _ i (by simp)
  have hplt : p < s.nodes.length := hWF.mem_lt s _ p (by simp)
  have hprevp : (s.get i).prev = some p := by
    rw [hprev, List.getLast?_concat]
  have hnext2 : (s.get i).next = none := by
    rw [hnext]; rfl
  have hheadne : s.head ≠ some i := WF_head_ne s (A2 ++ [p]) i [] hWF (by simp)
  have htail : s.tail = some i := by
    rw [hWF.tailEq, List.getLast?_concat]
  rw [Signal.detach_eq_tailsnoc s i p hown hprevp hnext2 hheadne htail hip hplt]
  set vp : SignalBindingImpl := { s.get p with next := none } with hvp
  set vi : SignalBindingImpl := { s.get i with owner := false } with hvi
  have hget : ∀ j, (Signal.get ⟨(s.nodes.set p vp).set i vi, s.head, some p, s.enabled⟩ j) =
      (if j = i then vi else if j = p then vp else s.get j) := by
    intro j
    rw [Signal.get_mk, getD_set, getD_set]
    by_cases hj : j = i
    · subst hj
      simp [hilt]
    · rw [if_neg (by simp [Ne.symm hj])]
      by_cases hjp : j = p
      · subst hjp
        simp [hplt, if_neg hj]
      · rw [if_neg (by simp [Ne.symm hjp]), if_neg hj, if_neg hjp, Signal.get_fold]
  -- split the old chain at p
  obtain ⟨pm, cm, hA2seg, hpseg⟩ := (dseg_append s A2 [p] none s.head _ (some i)).mp hA
  obtain ⟨hcm, hprevpA, hpin⟩ := hpseg
  obtain ⟨hpe2, hce2⟩ := hpin
  have hpm : pm = A2.getLast? := by
    have := dseg_end_prev s A2 none s.head pm cm hA2seg
    simpa [Option.or_none] using this
  refine ⟨⟨?_, ?_, ?_, ?_⟩, hget, rfl, rfl, rfl, by simp⟩
  · -- chain of the remaining list
    show dseg _ (A2 ++ [p]) none (⟨(s.nodes.set p vp).set i vi, s.head, some p, s.enabled⟩ : Signal).head
      ((A2 ++ [p]).getLast?) none
    refine (dseg_append _ A2 [p] none _ _ none).mpr ⟨pm, cm, ?_, ?_⟩
    · refine dseg_congr s _ A2 none s.head pm cm ?_ hA2seg
      intro j hj
      have hji : j ≠ i := fun hc => hiA2 (hc ▸ hj)
      have hjp : j ≠ p := fun hc => hpA2 (hc ▸ hj)
      rw [hget j, if_neg hji, if_neg hjp]
      exact ⟨rfl, rfl⟩
    · refine ⟨hcm, ?_, ?_, ?_⟩
      · rw [hget p, if_neg (Ne.symm hip), if_pos rfl]
        exact hprevpA
      · rw [List.getLast?_concat]
      · rw [hget p, if_neg (Ne.symm hip), if_pos rfl]
  · show (⟨(s.nodes.set p vp).set i vi, s.head, some p, s.enabled⟩ : Signal).tail = (A2 ++ [p]).getLast?
    rw [List.getLast?_concat]
  · intro j
    rw [hget j]
    by_cases hj : j = i
    · subst hj
      rw [if_pos rfl]
      simp only [hvi]
      constructor
      · intro hc
        exact absurd hc (by simp)
      · intro hc
        exact absurd hc hiA
    · rw [if_neg hj]
      by_cases hjp : j = p
      · subst hjp
        rw [if_pos rfl]
        constructor
        · intro _
          simp
        · intro _
          show (s.get j).owner = true
          exact (hWF.ownerIff j).mpr (by simp)
      · rw [if_neg hjp]
        rw [hWF.ownerIff j]
        constructor
        · intro hm
          rcases List.mem_append.mp hm with h | h
          · exact h
          · simp at h
            exact absurd h hj
        · intro hm
          exact List.mem_append.mpr (Or.inl hm)
  · intro a b hab
    rw [hget a] at hab
    have hlen : (⟨(s.nodes.set p vp).set i vi, s.head, some p, s.enabled⟩ : Signal).nodes.length = s.nodes.length := by
      simp
    rw [hlen]
    by_cases ha : a = i
    · rw [if_pos ha] at hab
      subst ha
      exact hWF.inc a b hab
    · rw [if_neg ha] at hab
      by_cases hap : a = p
      · rw [if_pos hap] at hab
        exact absurd hab (by simp [hvp])
      · rw [if_neg hap] at hab
        exact hWF.inc a b hab

/-- Detach of an interior node (non-empty prefix and suffix). -/
theorem Signal.detach_case4 (s : Signal) (A2 : List Nat) (p i q : Nat) (B2 : List Nat)
    (hWF : WF s ((A2 ++ [p]) ++ i :: q :: B2)) :
    WF (Signal.detach s i) ((A2 ++ [p]) ++ q :: B2) ∧
    (∀ j, (Signal.detach s i).get j =
      (if j = i then { s.get i with owner := false }
       else if j = q then { s.get q with prev := some p }
       else if j = p then { s.get p with next := some q } else s.get j)) ∧
    (Signal.detach s i).head = s.head ∧
    (Signal.detach s i).tail = s.tail ∧
    (Signal.detach s i).enabled = s.enabled ∧
    (Signal.detach s i).nodes.length = s.nodes.length := by
  obtain ⟨hown, hprev, hnext, hA, hB⟩ := WF_split s (A2 ++ [p]) i (q :: B2) hWF
  have hnd := hWF.nodup s _
  obtain ⟨hiA, hiB, hdisj⟩ := nodup_split (A2 ++ [p]) i (q :: B2) hnd
  have hip : i ≠ p := fun hc => hiA (by simp [hc])
  have hiq : i ≠ q := fun hc => hiB (by simp [hc])
  have hpq : p ≠ q := fun hc => hdisj p (by simp) (by simp [hc])
  have hiA2 : i ∉ A2 := fun hc => hiA (by simp [hc])
  have hiB2 : i ∉ B2 := fun hc => hiB (by simp [hc])
  have hpA2 : p ∉ A2 := by
    have h1 : (A2 ++ [p]).Nodup := (List.nodup_append.mp hnd).1
    obtain ⟨_, _, hd⟩ := List.nodup_append.mp h1
    intro hc
    exact hd hc (by simp)
  have hqB2 : q ∉ B2 := by
    have h2 : (i :: q :: B2).Nodup := (List.nodup_append.mp hnd).2.1
    have h3 : (q :: B2).Nodup := (List.nodup_cons.mp h2).2
    exact (List.nodup_cons.mp h3).1
  have hilt : i < s.nodes.length := hWF.mem_lt s _ i (by simp)
  have hplt : p < s.nodes.length := hWF.mem_lt s _ p (by simp)
  have hqlt : q < s.nodes.length := hWF.mem_lt s _ q (by simp)
  have hprevp : (s.get i).prev = some p := by
    rw [hprev, List.getLast?_concat]
  have hnextq : (s.get i).next = some q := by
    rw [hnext]; rfl
  have hheadne : s.head ≠ some i := WF_head_ne s (A2 ++ [p]) i (q :: B2) hWF (by simp)
  have htailne : s.tail ≠ some i := WF_tail_ne s (A2 ++ [p]) i (q :: B2) hWF (by simp)
  rw [Signal.detach_eq_mid s i p q hown hprevp hnextq hheadne htailne hip hiq hpq]
  set vp : SignalBindingImpl := { s.get p with next := some q } with hvp
  set vq : SignalBindingImpl := { s.get q with prev := some p } with hvq
  set vi : SignalBindingImpl := { s.get i with owner := false } with hvi
  set E : Signal := ⟨((s.nodes.set p vp).set q vq).set i vi, s.head, s.tail, s.enabled⟩ with hE
  have hget : ∀ j, E.get j =
      (if j = i then vi else if j = q then vq else if j = p then vp else s.get j) := by
    intro j
    rw [hE, Signal.get_mk, getD_set, getD_set, getD_set]
    by_cases hj : j = i
    · subst hj
      simp [hilt]
    · rw [if_neg (by simp [Ne.symm hj])]
      by_cases hjq : j = q
      · subst hjq
        simp [hqlt, if_neg hj]
      · rw [if_neg (by simp [Ne.symm hjq])]
        by_cases hjp : j = p
        · subst hjp
          simp [hplt, if_neg hj, if_neg hjq]
        · rw [if_neg (by simp [Ne.symm hjp]), if_neg hj, if_neg hjq, if_neg hjp,
            Signal.get_fold]
  obtain ⟨pm, cm, hA2seg, hpseg⟩ := (dseg_append s A2 [p] none s.head _ (some i)).mp hA
  obtain ⟨hcm, hprevpA, hpe2, hce2⟩ := hpseg
  have hnextp : (s.get p).next = some i := hce2.symm
  obtain ⟨_, hprevq, hB2⟩ := hB
  obtain ⟨w, hw⟩ : ∃ w, (q :: B2).getLast? = some w := by
    cases h : (q :: B2).getLast? with
    | none => exact absurd (List.getLast?_eq_none_iff.mp h) (by simp)
    | some v => exact ⟨v, rfl⟩
  have hLlast : ((A2 ++ [p]) ++ i :: q :: B2).getLast? = some w := by
    rw [List.getLast?_append]
    have : (i :: q :: B2).getLast? = some w := by
      rw [List.getLast?_cons_cons, hw]
    rw [this]
    rfl
  have hLlast2 : ((A2 ++ [p]) ++ q :: B2).getLast? = some w := by
    rw [List.getLast?_append, hw]
    rfl
  have hmemA2 : ∀ j ∈ A2, j ≠ i ∧ j ≠ p ∧ j ≠ q := by
    intro j hj
    refine ⟨fun hc => hiA2 (hc ▸ hj), fun hc => hpA2 (hc ▸ hj), ?_⟩
    intro hc
    exact hdisj j (by simp [hj]) (by simp [hc])
  have hmemB2 : ∀ j ∈ B2, j ≠ i ∧ j ≠ p ∧ j ≠ q := by
    intro j hj
    refine ⟨fun hc => hiB2 (hc ▸ hj), ?_, fun hc => hqB2 (hc ▸ hj)⟩
    intro hc
    exact hdisj p (by simp) (by simp [hc ▸ hj])
  refine ⟨⟨?_, ?_, ?_, ?_⟩, hget, rfl, rfl, rfl, by simp [hE]⟩
  · -- chain of the remaining list
    show dseg E ((A2 ++ [p]) ++ q :: B2) none E.head (((A2 ++ [p]) ++ q :: B2).getLast?) none
    rw [hLlast2, List.append_assoc]
    have hpqB : ([p] ++ q :: B2) = p :: q :: B2 := rfl
    rw [hpqB]
    refine (dseg_append E A2 (p :: q :: B2) none E.head (some w) none).mpr ⟨pm, cm, ?_, ?_⟩
    · refine dseg_congr s E A2 none s.head pm cm ?_ hA2seg
      intro j hj
      obtain ⟨h1, h2, h3⟩ := hmemA2 j hj
      rw [hget j, if_neg h1, if_neg h3, if_neg h2]
      exact ⟨rfl, rfl⟩
    · refine ⟨hcm, ?_, ?_⟩
      · rw [hget p, if_neg (Ne.symm hip), if_neg hpq, if_pos rfl]
        exact hprevpA
      · rw [hget p, if_neg (Ne.symm hip), if_neg hpq, if_pos rfl]
        show dseg E (q :: B2) (some p) vp.next (some w) none
        refine ⟨rfl, ?_, ?_⟩
        · rw [hget q, if_neg (Ne.symm hiq), if_pos rfl]
        · rw [hget q, if_neg (Ne.symm hiq), if_pos rfl]
          show dseg E B2 (some q) (s.get q).next (some w) none
          have hB2w : dseg s B2 (some q) (s.get q).next (some w) none := by
            rw [← hLlast]
            exact hB2
          refine dseg_congr s E B2 (some q) ((s.get q).next) (some w) none ?_ hB2w
          intro j hj
          obtain ⟨h1, h2, h3⟩ := hmemB2 j hj
          rw [hget j, if_neg h1, if_neg h3, if_neg h2]
          exact ⟨rfl, rfl⟩
  · show E.tail = ((A2 ++ [p]) ++ q :: B2).getLast?
    rw [hLlast2]
    show s.tail = some w
    rw [hWF.tailEq, hLlast]
  · intro j
    rw [hget j]
    by_cases hj : j = i
    · subst hj
      rw [if_pos rfl]
      simp only [hvi]
      constructor
      · intro hc
        exact absurd hc (by simp)
      · intro hc
        rcases List.mem_append.mp hc with h | h
        · exact absurd h hiA
        · exact absurd h hiB
    · rw [if_neg hj]
      by_cases hjq : j = q
      · subst hjq
        rw [if_pos rfl]
        constructor
        · intro _
          simp
        · intro _
          show (s.get j).owner = true
          exact (hWF.ownerIff j).mpr (by simp)
      · rw [if_neg hjq]
        by_cases hjp : j = p
        · subst hjp
          rw [if_pos rfl]
          constructor
          · intro _
            simp
          · intro _
            show (s.get j).owner = true
            exact (hWF.ownerIff j).mpr (by simp)
        · rw [if_neg hjp]
          rw [hWF.ownerIff j]
          constructor
          · intro hm
            rcases List.mem_append.mp hm with h | h
            · exact List.mem_append.mpr (Or.inl h)
            · rcases List.mem_cons.mp h with h2 | h2
              · exact absurd h2 hj
              · exact List.mem_append.mpr (Or.inr (by simp [h2]))
          · intro hm
            rcases List.mem_append.mp hm with h | h
            · exact List.mem_append.mpr (Or.inl h)
            · rcases List.mem_cons.mp h with h2 | h2
              · exact List.mem_append.mpr (Or.inr (by simp [h2]))
              · exact List.mem_append.mpr (Or.inr (by simp [h2]))
  · intro a b hab
    rw [hget a] at hab
    have hlen : E.nodes.length = s.nodes.length := by simp [hE]
    rw [hlen]
    by_cases ha : a = i
    · rw [if_pos ha] at hab
      subst ha
      exact hWF.inc a b hab
    · rw [if_neg ha] at hab
      by_cases haq : a = q
      · rw [if_pos haq] at hab
        subst haq
        exact hWF.inc a b hab
      · rw [if_neg haq] at hab
        by_cases hap : a = p
        · rw [if_pos hap] at hab
          have hb : b = q := by
            have hvpn : vp.next = some q := rfl
            rw [hvpn] at hab
            exact (Option.some_inj.mp hab).symm
          have h1 := hWF.inc p i hnextp
          have h2 := hWF.inc i q hnextq
          rw [hb, hap]
          omega
        · rw [if_neg hap] at hab
          exact hWF.inc a b hab

/-- Signal.detach removes exactly the chosen element from the invariant
list. -/
theorem Signal.detach_WF (s : Signal) (A : List Nat) (i : Nat) (B : List Nat)
    (hWF : WF s (A ++ i :: B)) : WF (Signal.detach s i) (A ++ B) := by
  rcases List.eq_nil_or_concat A with hA | ⟨A2, p, hA⟩
  · subst hA
    cases B with
    | nil => exact (Signal.detach_case1 s i (by simpa using hWF)).1
    | cons q B2 =>
      simpa using (Signal.detach_case2 s i q B2 (by simpa using hWF)).1
  · rw [List.concat_eq_append] at hA
    subst hA
    cases B with
    | nil => simpa using (Signal.detach_case3 s A2 p i (by simpa using hWF)).1
    | cons q B2 => exact (Signal.detach_case4 s A2 p i q B2 hWF).1

/-- Detach when the binding is not owned is a no-op. -/
theorem Signal.detach_noop (s : Signal) (i : Nat)
    (h : (s.get i).owner = false) : Signal.detach s i = s := by
  unfold Signal.detach
  rw [h]
  simp

/-- Detach on an arbitrary binding preserves the invariant (for some
resulting list). -/
theorem Signal.detach_WF_any (s : Signal) (L : List Nat) (i : Nat)
    (hWF : WF s L) : ∃ L2, WF (Signal.detach s i) L2 := by
  cases hown : (s.get i).owner with
  | false => exact ⟨L, by rw [Signal.detach_noop s i hown]; exact hWF⟩
  | true =>
    have hmem : i ∈ L := (hWF.ownerIff i).mp hown
    obtain ⟨A, B, hAB⟩ := List.append_of_mem hmem
    subst hAB
    exact ⟨A ++ B, Signal.detach_WF s A i B hWF⟩

/-- Field-level description of Signal.detach on an invariant state:
only the owner of the detached binding, the next link of its
predecessor, the prev link of its successor and the head and tail
references change; in particular the detached binding keeps its own
next and prev links (stale pointers into the old chain). -/
theorem Signal.detach_desc (s : Signal) (A : List Nat) (i : Nat) (B : List Nat)
    (hWF : WF s (A ++ i :: B)) :
    (Signal.detach s i).nodes.length = s.nodes.length ∧
    (Signal.detach s i).enabled = s.enabled ∧
    (Signal.detach s i).get i = { s.get i with owner := false } ∧
    (∀ j, ((Signal.detach s i).get j).once = (s.get j).once ∧
          ((Signal.detach s i).get j).fid = (s.get j).fid) ∧
    (∀ j, j ≠ i → ((Signal.detach s i).get j).owner = (s.get j).owner) ∧
    (∀ j, A.getLast? ≠ some j → ((Signal.detach s i).get j).next = (s.get j).next) ∧
    (∀ p2, A.getLast? = some p2 → ((Signal.detach s i).get p2).next = B.head?) ∧
    (∀ j, B.head? ≠ some j → ((Signal.detach s i).get j).prev = (s.get j).prev) ∧
    (Signal.detach s i).head = (if A = [] then B.head? else s.head) ∧
    (Signal.detach s i).tail = (if B = [] then A.getLast? else s.tail) := by
  rcases List.eq_nil_or_concat A with hA | ⟨A2, p, hA⟩
  · subst hA
    cases B with
    | nil =>
      obtain ⟨_, hget, hhd, htl, hen, hln⟩ := Signal.detach_case1 s i (by simpa using hWF)
      refine ⟨hln, hen, ?_, ?_, ?_, ?_, ?_, ?_, ?_, ?_⟩
      · rw [hget i, if_pos rfl]
      · intro j
        rw [hget j]
        by_cases hj : j = i
        · subst hj; rw [if_pos rfl]; exact ⟨rfl, rfl⟩
        · rw [if_neg hj]; exact ⟨rfl, rfl⟩
      · intro j hj
        rw [hget j, if_neg hj]
      · intro j _
        rw [hget j]
        by_cases hj : j = i
        · subst hj; rw [if_pos rfl]
        · rw [if_neg hj]
      · intro p2 hp2
        exact absurd hp2 (by simp)
      · intro j _
        rw [hget j]
        by_cases hj : j = i
        · subst hj; rw [if_pos rfl]
        · rw [if_neg hj]
      · rw [hhd]; rfl
      · rw [htl]; rfl
    | cons q B2 =>
      obtain ⟨_, hget, hhd, htl, hen, hln⟩ := Signal.detach_case2 s i q B2 (by simpa using hWF)
      have hnd := hWF.nodup s _
      obtain ⟨hiB, _, _⟩ := nodup_split [] i (q :: B2) (by simpa using hnd)
      refine ⟨hln, hen, ?_, ?_, ?_, ?_, ?_, ?_, ?_, ?_⟩
      · rw [hget i, if_pos rfl]
      · intro j
        rw [hget j]
        by_cases hj : j = i
        · subst hj; rw [if_pos rfl]; exact ⟨rfl, rfl⟩
        · rw [if_neg hj]
          by_cases hjq : j = q
          · subst hjq; rw [if_pos rfl]; exact ⟨rfl, rfl⟩
          · rw [if_neg hjq]; exact ⟨rfl, rfl⟩
      · intro j hj
        rw [hget j, if_neg hj]
        by_cases hjq : j = q
        · subst hjq; rw [if_pos rfl]
        · rw [if_neg hjq]
      · intro j _
        rw [hget j]
        by_cases hj : j = i
        · subst hj; rw [if_pos rfl]
        · rw [if_neg hj]
          by_cases hjq : j = q
          · subst hjq; rw [if_pos rfl]
          · rw [if_neg hjq]
      · intro p2 hp2
        exact absurd hp2 (by simp)
      · intro j hj
        have hjq : j ≠ q := by
          intro hc
          exact hj (by rw [hc]; rfl)
        rw [hget j]
        by_cases hji : j = i
        · subst hji; rw [if_pos rfl]
        · rw [if_neg hji, if_neg hjq]
      · rw [hhd]; rfl
      · rw [htl]
        simp
  · rw [List.concat_eq_append] at hA
    subst hA
    cases B with
    | nil =>
      obtain ⟨_, hget, hhd, htl, hen, hln⟩ := Signal.detach_case3 s A2 p i (by simpa using hWF)
      refine ⟨hln, hen, ?_, ?_, ?_, ?_, ?_, ?_, ?_, ?_⟩
      · rw [hget i, if_pos rfl]
      · intro j
        rw [hget j]
        by_cases hj : j = i
        · subst hj; rw [if_pos rfl]; exact ⟨rfl, rfl⟩
        · rw [if_neg hj]
          by_cases hjp : j = p
          · subst hjp; rw [if_pos rfl]; exact ⟨rfl, rfl⟩
          · rw [if_neg hjp]; exact ⟨rfl, rfl⟩
      · intro j hj
        rw [hget j, if_neg hj]
        by_cases hjp : j = p
        · subst hjp; rw [if_pos rfl]
        · rw [if_neg hjp]
      · intro j hj
        have hjp : j ≠ p := by
          intro hc
          rw [List.getLast?_concat] at hj
          exact hj (by rw [hc])
        rw [hget j]
        by_cases hji : j = i
        · subst hji; rw [if_pos rfl]
        · rw [if_neg hji, if_neg hjp]
      · intro p2 hp2
        rw [List.getLast?_concat] at hp2
        injection hp2 with hp2e
        subst hp2e
        have hnd := hWF.nodup s _
        obtain ⟨hiA, _, _⟩ := nodup_split (A2 ++ [p]) i [] hnd
        have hpi : p ≠ i := fun hc => hiA (by simp [← hc])
        rw [hget p, if_neg hpi, if_pos rfl]
        rfl
      · intro j _
        rw [hget j]
        by_cases hj : j = i
        · subst hj; rw [if_pos rfl]
        · rw [if_neg hj]
          by_cases hjp : j = p
          · subst hjp; rw [if_pos rfl]
          · rw [if_neg hjp]
      · rw [hhd]
        simp
      · rw [htl, if_pos rfl, List.getLast?_concat]
    | cons q B2 =>
      obtain ⟨_, hget, hhd, htl, hen, hln⟩ := Signal.detach_case4 s A2 p i q B2 hWF
      refine ⟨hln, hen, ?_, ?_, ?_, ?_, ?_, ?_, ?_, ?_⟩
      · rw [hget i, if_pos rfl]
      · intro j
        rw [hget j]
        by_cases hj : j = i
        · subst hj; rw [if_pos rfl]; exact ⟨rfl, rfl⟩
        · rw [if_neg hj]
          by_cases hjq : j = q
          · subst hjq; rw [if_pos rfl]; exact ⟨rfl, rfl⟩
          · rw [if_neg hjq]
            by_cases hjp : j = p
            · subst hjp; rw [if_pos rfl]; exact ⟨rfl, rfl⟩
            · rw [if_neg hjp]; exact ⟨rfl, rfl⟩
      · intro j hj
        rw [hget j, if_neg hj]
        by_cases hjq : j = q
        · subst hjq; rw [if_pos rfl]
        · rw [if_neg hjq]
          by_cases hjp : j = p
          · subst hjp; rw [if_pos rfl]
          · rw [if_neg hjp]
      · intro j hj
        have hjp : j ≠ p := by
          intro hc
          rw [List.getLast?_concat] at hj
          exact hj (by rw [hc])
        rw [hget j]
        by_cases hji : j = i
        · subst hji; rw [if_pos rfl]
        · rw [if_neg hji]
          by_cases hjq : j = q
          · subst hjq; rw [if_pos rfl]
          · rw [if_neg hjq, if_neg hjp]
      · intro p2 hp2
        rw [List.getLast?_concat] at hp2
        injection hp2 with hp2e
        subst hp2e
        have hnd := hWF.nodup s _
        obtain ⟨hiA, _, hdisj⟩ := nodup_split (A2 ++ [p]) i (q :: B2) hnd
        have hpi : p ≠ i := fun hc => hiA (by simp [← hc])
        have hpq : p ≠ q := fun hc => hdisj p (by simp) (by simp [hc])
        rw [hget p, if_neg hpi, if_neg hpq, if_pos rfl]
        rfl
      · intro j hj
        have hjq : j ≠ q := by
          intro hc
          exact hj (by rw [hc]; rfl)
        rw [hget j]
        by_cases hji : j = i
        · subst hji; rw [if_pos rfl]
        · rw [if_neg hji, if_neg hjq]
          by_cases hjp : j = p
          · subst hjp; rw [if_pos rfl]
          · rw [if_neg hjp]
      · rw [hhd]
        simp
      · rw [htl]
        simp

/-- The detachAll loop clears exactly the owners along the captured
chain and changes nothing else. -/
theorem detachAllLoop_desc (s : Signal) (B : List Nat) (pv cur pe : Option Nat)
    (hseg : dseg s B pv cur pe none) (hnd : B.Nodup) (fuel : Nat)
    (hf : B.length ≤ fuel) :
    (∀ j, (detachAllLoop fuel s cur).get j =
      (if j ∈ B then { s.get j with owner := false } else s.get j)) ∧
    (detachAllLoop fuel s cur).head = s.head ∧
    (detachAllLoop fuel s cur).tail = s.tail ∧
    (detachAllLoop fuel s cur).enabled = s.enabled ∧
    (detachAllLoop fuel s cur).nodes.length = s.nodes.length := by
  induction B generalizing s pv cur fuel with
  | nil =>
    obtain ⟨_, hc⟩ := hseg
    cases fuel with
    | zero => exact ⟨fun j => by rw [if_neg (by simp)]; rfl, rfl, rfl, rfl, rfl⟩
    | succ f =>
      rw [← hc]
      exact ⟨fun j => by rw [if_neg (by simp)]; rfl, rfl, rfl, rfl, rfl⟩
  | cons b B2 ih =>
    obtain ⟨hc, _, hseg2⟩ := hseg
    cases fuel with
    | zero => exact absurd hf (by simp)
    | succ f =>
      rw [hc]
      show (∀ j, (detachAllLoop (f + 1) s (some b)).get j = _) ∧ _
      have hnd2 : B2.Nodup := (List.nodup_cons.mp hnd).2
      have hbB2 : b ∉ B2 := (List.nodup_cons.mp hnd).1
      set s1 : Signal := s.setNode b { s.get b with owner := false } with hs1
      have hs1get : ∀ j, s1.get j = (if j = b then { s.get j with owner := false } else s.get j) := by
        intro j
        rw [hs1]
        show (Signal.get ⟨s.nodes.set b _, s.head, s.tail, s.enabled⟩ j) = _
        rw [Signal.get_mk, getD_set]
        by_cases hj : j = b
        · subst hj
          by_cases hlt : j < s.nodes.length
          · simp [hlt]
          · simp [hlt]
            rw [Signal.get_fold]
            rw [Signal.get_out s j (Nat.le_of_not_lt hlt)]
            rfl
        · rw [if_neg (by simp [Ne.symm hj]), if_neg hj, Signal.get_fold]
      have hloop : detachAllLoop (f + 1) s (some b) = detachAllLoop f s1 ((s1.get b).next) := by
        rfl
      have hs1next : (s1.get b).next = (s.get b).next := by
        rw [hs1get b, if_pos rfl]
      have hseg2b : dseg s1 B2 (some b) ((s1.get b).next) pe none := by
        rw [hs1next]
        refine dseg_congr s s1 B2 (some b) ((s.get b).next) pe none ?_ hseg2
        intro j hj
        have hjb : j ≠ b := fun hcc => hbB2 (hcc ▸ hj)
        rw [hs1get j, if_neg hjb]
        exact ⟨rfl, rfl⟩
      obtain ⟨ihget, ihh, iht, ihe, ihl⟩ := ih s1 (some b) ((s1.get b).next) hseg2b hnd2 f
        (Nat.le_of_succ_le_succ (by simpa using hf))
      rw [hloop]
      refine ⟨?_, by rw [ihh]; rfl, by rw [iht]; rfl, by rw [ihe]; rfl,
        by rw [ihl]; rw [hs1]; exact Signal.length_setNode s b _⟩
      intro j
      rw [ihget j]
      by_cases hj : j = b
      · subst hj
        have h1 : s1.get j = { s.get j with owner := false } := by
          rw [hs1get j, if_pos rfl]
        by_cases hj2 : j ∈ B2
        · rw [if_pos hj2, if_pos (by simp)]
          simp [h1]
        · rw [if_neg hj2, if_pos (by simp)]
          simp [h1]
      · have h1 : s1.get j = s.get j := by
          rw [hs1get j, if_neg hj]
        by_cases hj2 : j ∈ B2
        · rw [if_pos hj2, if_pos (by simp [hj2])]
          simp [h1]
        · rw [if_neg hj2, if_neg (by simp [hj, hj2])]
          exact h1

/-- Description of Signal.detachAll on an invariant state: every owner
along the list is cleared, head and tail become null, and every other
field of every binding (in particular all next and prev links) is left
unchanged. -/
theorem Signal.detachAll_desc (s : Signal) (L : List Nat) (hWF : WF s L) :
    (∀ j, (Signal.detachAll s).get j =
      (if j ∈ L then { s.get j with owner := false } else s.get j)) ∧
    (Signal.detachAll s).head = none ∧
    (Signal.detachAll s).tail = none ∧
    (Signal.detachAll s).enabled = s.enabled ∧
    (Signal.detachAll s).nodes.length = s.nodes.length := by
  cases hL : L with
  | nil =>
    subst hL
    have hhead : s.head = none := by
      rw [hWF.headEq]; rfl
    have htail : s.tail = none := by
      rw [hWF.tailEq]; rfl
    unfold Signal.detachAll
    rw [hhead]
    exact ⟨fun j => by simp, hhead, htail, rfl, rfl⟩
  | cons h0 L2 =>
    subst hL
    have hhead : s.head = some h0 := by
      rw [hWF.headEq]; rfl
    unfold Signal.detachAll
    rw [hhead]
    set s0 : Signal := { s with head := none, tail := none } with hs0
    have hs0get : ∀ j, s0.get j = s.get j := fun j => rfl
    have hseg : dseg s0 (h0 :: L2) none (some h0) ((h0 :: L2).getLast?) none := by
      refine dseg_congr s s0 (h0 :: L2) none (some h0) _ none ?_ ?_
      · intro j _
        exact ⟨rfl, rfl⟩
      · have := hWF.chain
        rwa [hhead] at this
    have hnd := hWF.nodup s _
    have hlen : (h0 :: L2).length ≤ s0.nodes.length := by
      have := hWF.length_le s _
      simpa using this
    obtain ⟨hget, hh, ht, he, hl⟩ := detachAllLoop_desc s0 (h0 :: L2) none (some h0)
      ((h0 :: L2).getLast?) hseg hnd s.nodes.length (by simpa using hlen)
    refine ⟨?_, by rw [hh], by rw [ht], by rw [he], by rw [hl]⟩
    intro j
    rw [hget j, hs0get j]

/-- detachAll empties the invariant list. -/
theorem Signal.detachAll_WF (s : Signal) (L : List Nat) (hWF : WF s L) :
    WF (Signal.detachAll s) [] := by
  obtain ⟨hget, hh, ht, _, hl⟩ := Signal.detachAll_desc s L hWF
  refine ⟨?_, ?_, ?_, ?_⟩
  · show dseg _ [] none (Signal.detachAll s).head _ none
    exact ⟨rfl, hh.symm⟩
  · rw [ht]; rfl
  · intro j
    rw [hget j]
    by_cases hj : j ∈ L
    · rw [if_pos hj]
      simp
    · rw [if_neg hj]
      simp only [List.not_mem_nil, iff_false]
      intro hc
      exact hj ((hWF.ownerIff j).mp hc)
  · intro a b hab
    rw [hl]
    rw [hget a] at hab
    by_cases ha : a ∈ L
    · rw [if_pos ha] at hab
      exact hWF.inc a b hab
    · rw [if_neg ha] at hab
      exact hWF.inc a b hab

theorem Signal.addBinding_snd (s : Signal) (o : Bool) (f : Nat) :
    (s.addBinding o f).2 = s.nodes.length := rfl

theorem Signal.addBinding_len (s : Signal) (o : Bool) (f : Nat) :
    (s.addBinding o f).1.nodes.length = s.nodes.length + 1 := by
  unfold Signal.addBinding Signal.alloc Signal.addSignalBinding Signal.setNode
  by_cases h : s.head = none
  · simp [h]
  · simp only [h, if_neg h]
    cases s.tail <;> simp

theorem Signal.addBinding_enabled (s : Signal) (o : Bool) (f : Nat) :
    (s.addBinding o f).1.enabled = s.enabled := by
  unfold Signal.addBinding Signal.alloc Signal.addSignalBinding Signal.setNode
  by_cases h : s.head = none
  · simp [h]
  · simp only [h, if_neg h]
    cases s.tail <;> simp

/-- Lookup description of addBinding on an invariant state. -/
theorem Signal.addBinding_get (s : Signal) (L : List Nat) (o : Bool) (f : Nat)
    (hWF : WF s L) :
    ∀ j, (s.addBinding o f).1.get j =
      (if j = s.nodes.length then ⟨o, f, none, s.tail, true⟩
       else if s.tail = some j then { s.get j with next := some s.nodes.length }
       else s.get j) := by
  intro j
  rcases List.eq_nil_or_concat L with hL | ⟨A, t, hL⟩
  · subst hL
    have hhead : s.head = none := by
      rw [hWF.headEq]; rfl
    have htail : s.tail = none := by
      rw [hWF.tailEq]; rfl
    rw [Signal.addBinding_eq_empty s o f hhead, htail]
    rw [Signal.get_mk]
    by_cases hj : j = s.nodes.length
    · subst hj
      rw [if_pos rfl, List.getElem?_concat_length]
      rfl
    · rw [if_neg hj, if_neg (by simp)]
      rcases Nat.lt_or_ge j s.nodes.length with hlt | hge
      · rw [List.getElem?_append]
        rw [if_pos hlt, Signal.get_fold]
      · have h1 : s.nodes.length < j := Nat.lt_of_le_of_ne hge (Ne.symm hj)
        rw [List.getElem?_append_right hge, List.getElem?_len_le (by simp; omega)]
        unfold Signal.get
        rw [List.getElem?_len_le (by omega)]
  · rw [List.concat_eq_append] at hL
    subst hL
    obtain ⟨htail, hhead, htlt, _⟩ := WF_tail_facts s A t hWF
    rw [Signal.addBinding_eq_cons s o f t hhead htail htlt, htail]
    rw [Signal.get_mk]
    by_cases hj : j = s.nodes.length
    · subst hj
      rw [if_pos rfl]
      have hidx : (s.nodes.set t { s.get t with next := some s.nodes.length } ++
          [(⟨o, f, none, some t, true⟩ : SignalBindingImpl)])[s.nodes.length]? =
          some ⟨o, f, none, some t, true⟩ := by
        rw [List.getElem?_append_right (by simp)]
        simp
      rw [hidx]
      rfl
    · rw [if_neg hj]
      by_cases hjt : t = j
      · subst hjt
        rw [if_pos rfl]
        rw [List.getElem?_append]
        rw [if_pos (by simp [htlt]), List.getElem?_set_self htlt]
        rfl
      · rw [if_neg (by simpa using hjt)]
        rcases Nat.lt_or_ge j s.nodes.length with hlt | hge
        · rw [List.getElem?_append]
          rw [if_pos (by simp [hlt]), List.getElem?_set_ne hjt, Signal.get_fold]
        · have h1 : s.nodes.length < j := Nat.lt_of_le_of_ne hge (Ne.symm hj)
          rw [List.getElem?_append_right (by simpa using hge), List.getElem?_len_le (by simp; omega)]
          unfold Signal.get
          rw [List.getElem?_len_le (by omega)]

/-- addBinding head description. -/
theorem Signal.addBinding_head (s : Signal) (o : Bool) (f : Nat) :
    (s.addBinding o f).1.head = (if s.head = none then some s.nodes.length else s.head) := by
  unfold Signal.addBinding Signal.alloc Signal.addSignalBinding Signal.setNode
  by_cases h : s.head = none
  · simp [h]
  · simp only [h, if_neg h]
    cases s.tail <;> simp [h]

/-- addBinding tail description. -/
theorem Signal.addBinding_tail (s : Signal) (o : Bool) (f : Nat) :
    (s.addBinding o f).1.tail = some s.nodes.length := by
  unfold Signal.addBinding Signal.alloc Signal.addSignalBinding Signal.setNode
  by_cases h : s.head = none
  · simp [h]
  · simp only [h, if_neg h]
    cases s.tail <;> simp

/-- Stability of Signal.detach: invariant preserved, arena and enabled
unchanged, once and fid of every binding unchanged, null owners stay
null. -/
theorem Signal.detach_stable (s : Signal) (L : List Nat) (hWF : WF s L) (i : Nat) :
    (∃ L2, WF (Signal.detach s i) L2) ∧
    (Signal.detach s i).nodes.length = s.nodes.length ∧
    (Signal.detach s i).enabled = s.enabled ∧
    (∀ x, ((Signal.detach s i).get x).once = (s.get x).once ∧
          ((Signal.detach s i).get x).fid = (s.get x).fid ∧
          ((s.get x).owner = false → ((Signal.detach s i).get x).owner = false)) := by
  cases hown : (s.get i).owner with
  | false =>
    rw [Signal.detach_noop s i hown]
    exact ⟨⟨L, hWF⟩, rfl, rfl, fun x => ⟨rfl, rfl, fun h => h⟩⟩
  | true =>
    have hmem : i ∈ L := (hWF.ownerIff i).mp hown
    obtain ⟨A, B, hAB⟩ := List.append_of_mem hmem
    subst hAB
    obtain ⟨hlen, hen, hgi, hof, how, _, _, _, _⟩ := Signal.detach_desc s A i B hWF
    refine ⟨⟨A ++ B, Signal.detach_WF s A i B hWF⟩, hlen, hen, ?_⟩
    intro x
    refine ⟨(hof x).1, (hof x).2, ?_⟩
    intro hx
    by_cases hxi : x = i
    · subst hxi
      rw [hgi]
    · rw [how x hxi]
      exact hx

/-- Stability of one handler action. -/
theorem runAct1_stable (s : Signal) (L : List Nat) (hWF : WF s L) (a : Act)
    (s2 : Signal) (r : Nat) (h : runAct1 s a = some (s2, r)) :
    (∃ L2, WF s2 L2) ∧
    s.nodes.length ≤ s2.nodes.length ∧
    s2.enabled = s.enabled ∧
    (∀ x, x < s.nodes.length →
      (s2.get x).once = (s.get x).once ∧ (s2.get x).fid = (s.get x).fid ∧
      ((s.get x).owner = false → (s2.get x).owner = false)) := by
  cases a with
  | detachB i =>
    simp only [runAct1] at h
    unfold SignalBindingImpl.detach at h
    by_cases hown : (s.get i).owner = false
    · rw [if_pos hown] at h
      injection h with h2
      injection h2 with h3 _
      subst h3
      exact ⟨⟨L, hWF⟩, Nat.le_refl _, rfl, fun x _ => ⟨rfl, rfl, fun hx => hx⟩⟩
    · rw [if_neg hown] at h
      injection h with h2
      injection h2 with h3 _
      subst h3
      obtain ⟨hW, hlen, hen, hst⟩ := Signal.detach_stable s L hWF i
      exact ⟨hW, Nat.le_of_eq hlen.symm, hen, fun x _ => hst x⟩
  | detachS i =>
    simp only [runAct1] at h
    injection h with h2
    injection h2 with h3 _
    subst h3
    obtain ⟨hW, hlen, hen, hst⟩ := Signal.detach_stable s L hWF i
    exact ⟨hW, Nat.le_of_eq hlen.symm, hen, fun x _ => hst x⟩
  | detachAllA =>
    simp only [runAct1] at h
    injection h with h2
    injection h2 with h3 _
    subst h3
    obtain ⟨hget, _, _, hen, hlen⟩ := Signal.detachAll_desc s L hWF
    refine ⟨⟨[], Signal.detachAll_WF s L hWF⟩, Nat.le_of_eq hlen.symm, hen, ?_⟩
    intro x _
    rw [hget x]
    by_cases hx : x ∈ L
    · rw [if_pos hx]
      exact ⟨rfl, rfl, fun _ => rfl⟩
    · rw [if_neg hx]
      exact ⟨rfl, rfl, fun hh => hh⟩
  | addA o f =>
    simp only [runAct1] at h
    injection h with h2
    injection h2 with h3 _
    subst h3
    refine ⟨⟨L ++ [s.nodes.length], Signal.addBinding_WF s L o f hWF⟩, ?_, Signal.addBinding_enabled s o f, ?_⟩
    · rw [Signal.addBinding_len]
      omega
    · intro x hx
      rw [Signal.addBinding_get s L o f hWF x, if_neg (by omega)]
      by_cases ht : s.tail = some x
      · rw [if_pos ht]
        exact ⟨rfl, rfl, fun hh => hh⟩
      · rw [if_neg ht]
        exact ⟨rfl, rfl, fun hh => hh⟩
  | resolveA =>
    simp only [runAct1] at h
    injection h with h2
    injection h2 with h3 _
    subst h3
    exact ⟨⟨L, hWF⟩, Nat.le_refl _, rfl, fun x _ => ⟨rfl, rfl, fun hx => hx⟩⟩
  | throwA =>
    simp only [runAct1] at h
    exact absurd h (by simp)

/-- Stability of a handler body (also on the throwing path, where the
state before the exception is returned). -/
theorem runActs_stable (acts : List Act) : ∀ (s : Signal) (L : List Nat), WF s L →
    (∃ L2, WF (runActs s acts).1 L2) ∧
    s.nodes.length ≤ (runActs s acts).1.nodes.length ∧
    (runActs s acts).1.enabled = s.enabled ∧
    (∀ x, x < s.nodes.length →
      ((runActs s acts).1.get x).once = (s.get x).once ∧
      ((runActs s acts).1.get x).fid = (s.get x).fid ∧
      ((s.get x).owner = false → ((runActs s acts).1.get x).owner = false)) := by
  induction acts with
  | nil =>
    intro s L hWF
    exact ⟨⟨L, hWF⟩, Nat.le_refl _, rfl, fun x _ => ⟨rfl, rfl, fun hx => hx⟩⟩
  | cons a rest ih =>
    intro s L hWF
    show (∃ L2, WF (runActs s (a :: rest)).1 L2) ∧ _
    cases hra : runAct1 s a with
    | none =>
      have hr : runActs s (a :: rest) = (s, 0, true) := by
        unfold runActs
        rw [hra]
      rw [hr]
      exact ⟨⟨L, hWF⟩, Nat.le_refl _, rfl, fun x _ => ⟨rfl, rfl, fun hx => hx⟩⟩
    | some sr =>
      obtain ⟨s1, r⟩ := sr
      have hr : (runActs s (a :: rest)).1 = (runActs s1 rest).1 := by
        simp only [runActs]
        rw [hra]
      rw [hr]
      obtain ⟨⟨L1, hWF1⟩, hlen1, hen1, hst1⟩ := runAct1_stable s L hWF a s1 r hra
      obtain ⟨hW2, hlen2, hen2, hst2⟩ := ih s1 L1 hWF1
      refine ⟨hW2, Nat.le_trans hlen1 hlen2, hen2.trans hen1, ?_⟩
      intro x hx
      have hx1 : x < s1.nodes.length := Nat.lt_of_lt_of_le hx hlen1
      obtain ⟨ho1, hf1, hw1⟩ := hst1 x hx
      obtain ⟨ho2, hf2, hw2⟩ := hst2 x hx1
      exact ⟨ho2.trans ho1, hf2.trans hf1, fun hh => hw2 (hw1 hh)⟩

/-- Unfolding of one dispatch-loop iteration whose handler throws. -/
theorem dispatchLoop_throw (env : Nat → List Act) (wres : Bool) (args : List Nat)
    (fuel : Nat) (s : Signal) (i : Nat) (s1 : Signal)
    (hs1 : s1 = (if (s.get i).once then Signal.detach s i else s))
    (s2 : Signal) (r : Nat)
    (h : runActs s1 (env ((s1.get i).fid)) = (s2, r, true)) :
    dispatchLoop env wres args (fuel + 1) s (some i) =
      ⟨s2, [⟨i, (s1.get i).owner, s1.hasAny, s1.handlers, args, wres, true⟩], r, true⟩ := by
  subst hs1
  simp only [dispatchLoop]
  rw [h]

/-- Unfolding of one dispatch-loop iteration whose handler returns. -/
theorem dispatchLoop_ok (env : Nat → List Act) (wres : Bool) (args : List Nat)
    (fuel : Nat) (s : Signal) (i : Nat) (s1 : Signal)
    (hs1 : s1 = (if (s.get i).once then Signal.detach s i else s))
    (s2 : Signal) (r : Nat)
    (h : runActs s1 (env ((s1.get i).fid)) = (s2, r, false)) :
    dispatchLoop env wres args (fuel + 1) s (some i) =
      ⟨(dispatchLoop env wres args fuel s2 ((s2.get i).next)).state,
        ⟨i, (s1.get i).owner, s1.hasAny, s1.handlers, args, wres, false⟩ ::
          (dispatchLoop env wres args fuel s2 ((s2.get i).next)).trace,
        r + (dispatchLoop env wres args fuel s2 ((s2.get i).next)).resolves,
        (dispatchLoop env wres args fuel s2 ((s2.get i).next)).raised⟩ := by
  subst hs1
  simp only [dispatchLoop]
  rw [h]

/-- Stability of the dispatch loop: the invariant is preserved by every
iteration (for any handler behavior), the arena only grows, and every
already-allocated binding keeps its once flag and fid while null owners
stay null. -/
theorem dispatchLoop_stable (env : Nat → List Act) (wres : Bool) (args : List Nat) :
    ∀ (fuel : Nat) (s : Signal) (cur : Option Nat) (L : List Nat), WF s L →
    (∃ L2, WF (dispatchLoop env wres args fuel s cur).state L2) ∧
    s.nodes.length ≤ (dispatchLoop env wres args fuel s cur).state.nodes.length ∧
    (∀ x, x < s.nodes.length →
      ((dispatchLoop env wres args fuel s cur).state.get x).once = (s.get x).once ∧
      ((dispatchLoop env wres args fuel s cur).state.get x).fid = (s.get x).fid ∧
      ((s.get x).owner = false →
        ((dispatchLoop env wres args fuel s cur).state.get x).owner = false)) := by
  intro fuel
  induction fuel with
  | zero =>
    intro s cur L hWF
    exact ⟨⟨L, hWF⟩, Nat.le_refl _, fun x _ => ⟨rfl, rfl, fun hx => hx⟩⟩
  | succ fuel ih =>
    intro s cur L hWF
    cases cur with
    | none =>
      exact ⟨⟨L, hWF⟩, Nat.le_refl _, fun x _ => ⟨rfl, rfl, fun hx => hx⟩⟩
    | some i =>
      set s1 : Signal := if (s.get i).once then Signal.detach s i else s with hs1
      have hstep1 : (∃ L1, WF s1 L1) ∧ s1.nodes.length = s.nodes.length ∧
          (∀ x, (s1.get x).once = (s.get x).once ∧ (s1.get x).fid = (s.get x).fid ∧
            ((s.get x).owner = false → (s1.get x).owner = false)) := by
        rw [hs1]
        by_cases ho : (s.get i).once
        · rw [if_pos ho]
          obtain ⟨hW, hlen, _, hst⟩ := Signal.detach_stable s L hWF i
          exact ⟨hW, hlen, hst⟩
        · rw [if_neg ho]
          exact ⟨⟨L, hWF⟩, rfl, fun x => ⟨rfl, rfl, fun hx => hx⟩⟩
      obtain ⟨⟨L1, hWF1⟩, hlen1, hst1⟩ := hstep1
      rcases hra : runActs s1 (env ((s1.get i).fid)) with ⟨s2, r, th⟩
      obtain ⟨hWx, hlenx, _, hstx⟩ := by
        have := runActs_stable (env ((s1.get i).fid)) s1 L1 hWF1
        rw [hra] at this
        exact this
      obtain ⟨L2, hWF2⟩ : ∃ L2, WF s2 L2 := hWx
      have hlen2 : s1.nodes.length ≤ s2.nodes.length := hlenx
      have hst2 : ∀ x, x < s1.nodes.length →
          (s2.get x).once = (s1.get x).once ∧ (s2.get x).fid = (s1.get x).fid ∧
          ((s1.get x).owner = false → (s2.get x).owner = false) := hstx
      cases th with
      | true =>
        rw [dispatchLoop_throw env wres args fuel s i s1 hs1 s2 r hra]
        refine ⟨⟨L2, hWF2⟩, ?_, ?_⟩
        · show s.nodes.length ≤ s2.nodes.length
          omega
        · intro x hx
          show (s2.get x).once = (s.get x).once ∧ (s2.get x).fid = (s.get x).fid ∧
            ((s.get x).owner = false → (s2.get x).owner = false)
          have hx1 : x < s1.nodes.length := by omega
          obtain ⟨ho1, hf1, hw1⟩ := hst1 x
          obtain ⟨ho2, hf2, hw2⟩ := hst2 x hx1
          exact ⟨ho2.trans ho1, hf2.trans hf1, fun hh => hw2 (hw1 hh)⟩
      | false =>
        rw [dispatchLoop_ok env wres args fuel s i s1 hs1 s2 r hra]
        obtain ⟨hW3, hlen3, hst3⟩ := ih s2 ((s2.get i).next) L2 hWF2
        refine ⟨hW3, ?_, ?_⟩
        · show s.nodes.length ≤
            (dispatchLoop env wres args fuel s2 ((s2.get i).next)).state.nodes.length
          omega
        · intro x hx
          show ((dispatchLoop env wres args fuel s2 ((s2.get i).next)).state.get x).once = (s.get x).once ∧
            ((dispatchLoop env wres args fuel s2 ((s2.get i).next)).state.get x).fid = (s.get x).fid ∧
            ((s.get x).owner = false →
              ((dispatchLoop env wres args fuel s2 ((s2.get i).next)).state.get x).owner = false)
          have hx1 : x < s1.nodes.length := by omega
          have hx2 : x < s2.nodes.length := by omega
          obtain ⟨ho1, hf1, hw1⟩ := hst1 x
          obtain ⟨ho2, hf2, hw2⟩ := hst2 x hx1
          obtain ⟨ho3, hf3, hw3⟩ := hst3 x hx2
          exact ⟨ho3.trans (ho2.trans ho1), hf3.trans (hf2.trans hf1),
            fun hh => hw3 (hw2 (hw1 hh))⟩

/-! ## Reachability along next links -/

/-- x is reachable from a by following next links (including zero
steps).  This is exactly the set of bindings a dispatch traversal
standing at a can still visit if no further mutation occurs. -/
inductive Reach (s : Signal) : Nat → Nat → Prop
  | refl (a : Nat) : Reach s a a
  | step (a b c : Nat) : (s.get a).next = some b → Reach s b c → Reach s a c

theorem Reach.le (s : Signal) (L : List Nat) (hWF : WF s L) :
    ∀ {a b : Nat}, Reach s a b → a ≤ b := by
  intro a b h
  induction h with
  | refl => exact Nat.le_refl _
  | step a2 b2 c2 hn _ ih =>
    have := hWF.inc a2 b2 hn
    omega

theorem WF_next_mem (s : Signal) (L : List Nat) (hWF : WF s L) {a b : Nat}
    (ha : a ∈ L) (h : (s.get a).next = some b) : b ∈ L := by
  obtain ⟨A, B, hAB⟩ := List.append_of_mem ha
  subst hAB
  have hnext := (WF_split s A a B hWF).2.2.1
  rw [hnext] at h
  cases B with
  | nil => exact absurd h (by simp)
  | cons q B2 =>
    have hbq : b = q := by
      injection h with h2
      exact h2.symm
    subst hbq
    simp

theorem WF_reach_mem (s : Signal) (L : List Nat) (hWF : WF s L) {a x : Nat}
    (ha : a ∈ L) (h : Reach s a x) : x ∈ L := by
  induction h with
  | refl => exact ha
  | step a2 b2 c2 hn hr ih => exact ih (WF_next_mem s L hWF ha hn)

theorem reach_congr_next (s s2 : Signal)
    (h : ∀ j, (s2.get j).next = (s.get j).next) {c x : Nat} :
    Reach s2 c x → Reach s c x := by
  intro hr
  induction hr with
  | refl => exact Reach.refl _
  | step a b c2 hn _ ih => exact Reach.step a b c2 (by rw [← h a]; exact hn) ih

/-- Reachability in the state after a detach implies reachability
before: splicing only short-circuits paths. -/
theorem reach_detach (s : Signal) (L : List Nat) (hWF : WF s L) (v : Nat)
    {c x : Nat} (h : Reach (Signal.detach s v) c x) : Reach s c x := by
  cases hown : (s.get v).owner with
  | false =>
    rw [Signal.detach_noop s v hown] at h
    exact h
  | true =>
    have hmem : v ∈ L := (hWF.ownerIff v).mp hown
    obtain ⟨A, B, hAB⟩ := List.append_of_mem hmem
    subst hAB
    obtain ⟨_, _, _, _, _, hnp, hpn, _, _, _⟩ := Signal.detach_desc s A v B hWF
    induction h with
    | refl => exact Reach.refl _
    | step a b c2 hn _ ih =>
      by_cases hp : A.getLast? = some a
      · rw [hpn a hp] at hn
        cases B with
        | nil => exact absurd hn (by simp)
        | cons q B2 =>
          have hbq : b = q := by
            injection hn with h2
            exact h2.symm
          obtain ⟨A2, p, hA2⟩ : ∃ A2 p, A = A2 ++ [p] := by
            rcases List.eq_nil_or_concat A with hAe | ⟨A2, p, hAe⟩
            · rw [hAe] at hp
              exact absurd hp (by simp)
            · rw [List.concat_eq_append] at hAe
              exact ⟨A2, p, hAe⟩
          have hpeq : a = p := by
            rw [hA2, List.getLast?_concat] at hp
            injection hp with h2
            exact h2.symm
          have hWF2 : WF s (A2 ++ p :: v :: q :: B2) := by
            have hWFc := hWF
            rw [hA2] at hWFc
            have he : (A2 ++ [p]) ++ v :: q :: B2 = A2 ++ p :: v :: q :: B2 := by simp
            rwa [he] at hWFc
          have hanext : (s.get p).next = some v :=
            (WF_split s A2 p (v :: q :: B2) hWF2).2.2.1
          have hvnext : (s.get v).next = some q :=
            (WF_split s A v (q :: B2) hWF).2.2.1
          rw [hpeq]
          exact Reach.step p v c2 hanext (Reach.step v q c2 hvnext (hbq ▸ ih))
      · rw [hnp a hp] at hn
        exact Reach.step a b c2 hn ih

theorem reach_detachAll (s : Signal) (L : List Nat) (hWF : WF s L)
    {c x : Nat} (h : Reach (Signal.detachAll s) c x) : Reach s c x := by
  refine reach_congr_next s (Signal.detachAll s) ?_ h
  intro j
  obtain ⟨hget, _, _, _, _⟩ := Signal.detachAll_desc s L hWF
  rw [hget j]
  by_cases hj : j ∈ L
  · rw [if_pos hj]
  · rw [if_neg hj]

theorem Reach.inv (s : Signal) {a x : Nat} (h : Reach s a x) :
    a = x ∨ ∃ b, (s.get a).next = some b ∧ Reach s b x := by
  cases h with
  | refl => exact Or.inl rfl
  | step a b c hn hr => exact Or.inr ⟨b, hn, hr⟩

theorem reach_add (s : Signal) (L : List Nat) (o : Bool) (f : Nat)
    (hWF : WF s L) {c x : Nat}
    (h : Reach (s.addBinding o f).1 c x) : x < s.nodes.length → Reach s c x := by
  have hget := Signal.addBinding_get s L o f hWF
  induction h with
  | refl =>
    intro _
    exact Reach.refl _
  | step a b c2 hn hr ih =>
    intro hx
    rw [hget a] at hn
    by_cases ha : a = s.nodes.length
    · rw [if_pos ha] at hn
      exact absurd hn (by simp)
    · rw [if_neg ha] at hn
      by_cases ht : s.tail = some a
      · rw [if_pos ht] at hn
        have hbn : b = s.nodes.length := by
          injection hn with h2
          exact h2.symm
        exfalso
        rw [hbn] at hr
        rcases Reach.inv _ hr with heq | ⟨b2, hn2, _⟩
        · omega
        · rw [hget s.nodes.length, if_pos rfl] at hn2
          exact absurd hn2 (by simp)
      · rw [if_neg ht] at hn
        exact Reach.step a b c2 hn (ih hx)

theorem reach_runAct1 (s : Signal) (L : List Nat) (hWF : WF s L) (a : Act)
    (s2 : Signal) (r : Nat) (h : runAct1 s a = some (s2, r))
    {c x : Nat} (hx : x < s.nodes.length) (hr : Reach s2 c x) : Reach s c x := by
  cases a with
  | detachB i =>
    simp only [runAct1] at h
    unfold SignalBindingImpl.detach at h
    by_cases hown : (s.get i).owner = false
    · rw [if_pos hown] at h
      injection h with h2
      injection h2 with h3 _
      rw [← h3] at hr
      exact hr
    · rw [if_neg hown] at h
      injection h with h2
      injection h2 with h3 _
      rw [← h3] at hr
      exact reach_detach s L hWF i hr
  | detachS i =>
    simp only [runAct1] at h
    injection h with h2
    injection h2 with h3 _
    rw [← h3] at hr
    exact reach_detach s L hWF i hr
  | detachAllA =>
    simp only [runAct1] at h
    injection h with h2
    injection h2 with h3 _
    rw [← h3] at hr
    exact reach_detachAll s L hWF hr
  | addA o f =>
    simp only [runAct1] at h
    injection h with h2
    injection h2 with h3 _
    rw [← h3] at hr
    exact reach_add s L o f hWF hr hx
  | resolveA =>
    simp only [runAct1] at h
    injection h with h2
    injection h2 with h3 _
    rw [← h3] at hr
    exact hr
  | throwA =>
    simp only [runAct1] at h
    exact absurd h (by simp)

theorem reach_runActs (acts : List Act) : ∀ (s : Signal) (L : List Nat), WF s L →
    ∀ {c x : Nat}, x < s.nodes.length →
    Reach (runActs s acts).1 c x → Reach s c x := by
  induction acts with
  | nil =>
    intro s L hWF c x hx hr
    exact hr
  | cons a rest ih =>
    intro s L hWF c x hx hr
    cases hra : runAct1 s a with
    | none =>
      have he : (runActs s (a :: rest)).1 = s := by
        simp only [runActs]
        rw [hra]
      rw [he] at hr
      exact hr
    | some sr =>
      obtain ⟨s1, r⟩ := sr
      have he : (runActs s (a :: rest)).1 = (runActs s1 rest).1 := by
        simp only [runActs]
        rw [hra]
      rw [he] at hr
      obtain ⟨⟨L1, hWF1⟩, hlen1, _, _⟩ := runAct1_stable s L hWF a s1 r hra
      have hx1 : x < s1.nodes.length := Nat.lt_of_lt_of_le hx hlen1
      exact reach_runAct1 s L hWF a s1 r hra hx (ih s1 L1 hWF1 hx1 hr)

/-- Number of invocations of binding x recorded in a trace. -/
def countInv (x : Nat) (tr : List Event) : Nat := (tr.map Event.id).count x

theorem dispatchLoop_none (env : Nat → List Act) (wres : Bool) (args : List Nat)
    (fuel : Nat) (s : Signal) :
    dispatchLoop env wres args fuel s none = ⟨s, [], 0, false⟩ := by
  cases fuel <;> rfl

/-- A dispatch traversal never visits a binding that is unreachable
from the cursor: in particular a binding detached before the dispatch
began is never invoked. -/
theorem dispatchLoop_avoid (env : Nat → List Act) (wres : Bool) (args : List Nat)
    (x : Nat) :
    ∀ (fuel : Nat) (s : Signal) (cur : Option Nat) (L : List Nat), WF s L →
    x < s.nodes.length →
    (cur = none ∨ ∃ c, cur = some c ∧ ¬ Reach s c x) →
    ∀ ev ∈ (dispatchLoop env wres args fuel s cur).trace, ev.id ≠ x := by
  intro fuel
  induction fuel with
  | zero =>
    intro s cur L _ _ _ ev hev
    exact absurd hev (by simp [dispatchLoop])
  | succ fuel ih =>
    intro s cur L hWF hx hcur
    cases cur with
    | none =>
      intro ev hev
      rw [dispatchLoop_none] at hev
      exact absurd hev (by simp)
    | some c =>
      obtain ⟨c2, hc2, hnr⟩ : ∃ c2, (some c : Option Nat) = some c2 ∧ ¬ Reach s c2 x := by
        rcases hcur with h | h
        · exact absurd h (by simp)
        · exact h
      have hceq : c = c2 := by
        injection hc2 with h2
      subst hceq
      have hcx : c ≠ x := fun hc => hnr (hc ▸ Reach.refl c)
      set s1 : Signal := if (s.get c).once then Signal.detach s c else s with hs1
      obtain ⟨L1, hWF1⟩ : ∃ L1, WF s1 L1 := by
        rw [hs1]
        by_cases ho : (s.get c).once
        · rw [if_pos ho]
          exact Signal.detach_WF_any s L c hWF
        · rw [if_neg ho]
          exact ⟨L, hWF⟩
      have hlen1 : s1.nodes.length = s.nodes.length := by
        rw [hs1]
        by_cases ho : (s.get c).once
        · rw [if_pos ho]
          exact (Signal.detach_stable s L hWF c).2.1
        · rw [if_neg ho]
      have hx1 : x < s1.nodes.length := by omega
      have hnr1 : ¬ Reach s1 c x := by
        intro hr
        apply hnr
        rw [hs1] at hr
        by_cases ho : (s.get c).once
        · rw [if_pos ho] at hr
          exact reach_detach s L hWF c hr
        · rw [if_neg ho] at hr
          exact hr
      rcases hra : runActs s1 (env ((s1.get c).fid)) with ⟨s2, r, th⟩
      obtain ⟨hWx, hlenx, _, _⟩ := by
        have := runActs_stable (env ((s1.get c).fid)) s1 L1 hWF1
        rw [hra] at this
        exact this
      obtain ⟨L2, hWF2⟩ : ∃ L2, WF s2 L2 := hWx
      have hlen2 : s1.nodes.length ≤ s2.nodes.length := hlenx
      have hx2 : x < s2.nodes.length := by omega
      have hnr2 : ¬ Reach s2 c x := by
        intro hr
        apply hnr1
        have hre : Reach (runActs s1 (env ((s1.get c).fid))).1 c x := by
          rw [hra]
          exact hr
        exact reach_runActs (env ((s1.get c).fid)) s1 L1 hWF1 hx1 hre
      cases th with
      | true =>
        rw [dispatchLoop_throw env wres args fuel s c s1 hs1 s2 r hra]
        intro ev hev
        simp only [List.mem_singleton] at hev
        subst hev
        exact hcx
      | false =>
        rw [dispatchLoop_ok env wres args fuel s c s1 hs1 s2 r hra]
        intro ev hev
        simp only [List.mem_cons] at hev
        rcases hev with hev | hev
        · subst hev
          exact hcx
        · refine ih s2 ((s2.get c).next) L2 hWF2 hx2 ?_ ev hev
          cases hn : (s2.get c).next with
          | none => exact Or.inl rfl
          | some c3 =>
            refine Or.inr ⟨c3, rfl, ?_⟩
            intro hr
            exact hnr2 (Reach.step c c3 x hn hr)

/-- The ids along a dispatch trace strictly increase (the allocation
order of bindings increases along every next link), so no binding is
visited twice within one dispatch. -/
theorem dispatchLoop_mono (env : Nat → List Act) (wres : Bool) (args : List Nat) :
    ∀ (fuel : Nat) (s : Signal) (cur : Option Nat) (L : List Nat), WF s L →
    (∀ ev ∈ (dispatchLoop env wres args fuel s cur).trace, ∃ c, cur = some c ∧ c ≤ ev.id) ∧
    List.Chain' (· < ·) ((dispatchLoop env wres args fuel s cur).trace.map Event.id) := by
  intro fuel
  induction fuel with
  | zero =>
    intro s cur L _
    exact ⟨fun ev hev => absurd hev (by simp [dispatchLoop]), by simp [dispatchLoop]⟩
  | succ fuel ih =>
    intro s cur L hWF
    cases cur with
    | none =>
      rw [dispatchLoop_none]
      exact ⟨fun ev hev => absurd hev (by simp), by simp⟩
    | some i =>
      set s1 : Signal := if (s.get i).once then Signal.detach s i else s with hs1
      obtain ⟨L1, hWF1⟩ : ∃ L1, WF s1 L1 := by
        rw [hs1]
        by_cases ho : (s.get i).once
        · rw [if_pos ho]
          exact Signal.detach_WF_any s L i hWF
        · rw [if_neg ho]
          exact ⟨L, hWF⟩
      rcases hra : runActs s1 (env ((s1.get i).fid)) with ⟨s2, r, th⟩
      obtain ⟨hWx, _, _, _⟩ := by
        have := runActs_stable (env ((s1.get i).fid)) s1 L1 hWF1
        rw [hra] at this
        exact this
      obtain ⟨L2, hWF2⟩ : ∃ L2, WF s2 L2 := hWx
      cases th with
      | true =>
        rw [dispatchLoop_throw env wres args fuel s i s1 hs1 s2 r hra]
        constructor
        · intro ev hev
          simp only [List.mem_singleton] at hev
          subst hev
          exact ⟨i, rfl, Nat.le_refl i⟩
        · simp
      | false =>
        rw [dispatchLoop_ok env wres args fuel s i s1 hs1 s2 r hra]
        obtain ⟨hall, hchn⟩ := ih s2 ((s2.get i).next) L2 hWF2
        have hgt : ∀ ev ∈ (dispatchLoop env wres args fuel s2 ((s2.get i).next)).trace,
            i < ev.id := by
          intro ev hev
          obtain ⟨c2, hc2, hle⟩ := hall ev hev
          have := hWF2.inc i c2 hc2
          omega
        constructor
        · intro ev hev
          simp only [List.mem_cons] at hev
          rcases hev with hev | hev
          · subst hev
            exact ⟨i, rfl, Nat.le_refl i⟩
          · exact ⟨i, rfl, Nat.le_of_lt (hgt ev hev)⟩
        · show List.Chain' (· < ·) (i :: _)
          rw [List.chain'_cons']
          refine ⟨?_, hchn⟩
          intro y hy
          have hym := List.mem_of_mem_head? hy
          simp only [List.mem_map] at hym
          obtain ⟨ev, hev, hevid⟩ := hym
          rw [← hevid]
          exact hgt ev hev

/-- Per-dispatch invocation count of any binding is at most one. -/
theorem dispatchLoop_count_le_one (env : Nat → List Act) (wres : Bool) (args : List Nat)
    (fuel : Nat) (s : Signal) (cur : Option Nat) (L : List Nat) (hWF : WF s L) (x : Nat) :
    countInv x (dispatchLoop env wres args fuel s cur).trace ≤ 1 := by
  have hchn := (dispatchLoop_mono env wres args fuel s cur L hWF).2
  have hp : List.Pairwise (· < ·) ((dispatchLoop env wres args fuel s cur).trace.map Event.id) :=
    List.chain'_iff_pairwise.mp hchn
  exact List.nodup_iff_count_le_one.mp hp.nodup x

theorem once_lt (s : Signal) (x : Nat) (h : (s.get x).once = true) :
    x < s.nodes.length := by
  by_contra hc
  rw [Signal.get_out s x (Nat.le_of_not_lt hc)] at h
  simp [dnode] at h

theorem detach_owner_false (s : Signal) (L : List Nat) (hWF : WF s L) (x : Nat) :
    ((Signal.detach s x).get x).owner = false := by
  cases hown : (s.get x).owner with
  | false =>
    rw [Signal.detach_noop s x hown]
    exact hown
  | true =>
    have hmem : x ∈ L := (hWF.ownerIff x).mp hown
    obtain ⟨A, B, hAB⟩ := List.append_of_mem hmem
    subst hAB
    obtain ⟨_, _, hgi, _⟩ := Signal.detach_desc s A x B hWF
    rw [hgi]

/-- After a dispatch in which a once binding was invoked, the binding
is detached (null owner) in the final state. -/
theorem dispatchLoop_once_detached (env : Nat → List Act) (wres : Bool) (args : List Nat)
    (x : Nat) :
    ∀ (fuel : Nat) (s : Signal) (cur : Option Nat) (L : List Nat), WF s L →
    (s.get x).once = true →
    1 ≤ countInv x (dispatchLoop env wres args fuel s cur).trace →
    ((dispatchLoop env wres args fuel s cur).state.get x).owner = false := by
  intro fuel
  induction fuel with
  | zero =>
    intro s cur L _ _ hcnt
    exact absurd hcnt (by simp [dispatchLoop, countInv])
  | succ fuel ih =>
    intro s cur L hWF honce hcnt
    cases cur with
    | none =>
      rw [dispatchLoop_none] at hcnt
      exact absurd hcnt (by simp [countInv])
    | some i =>
      have hxlt : x < s.nodes.length := once_lt s x honce
      set s1 : Signal := if (s.get i).once then Signal.detach s i else s with hs1
      obtain ⟨L1, hWF1⟩ : ∃ L1, WF s1 L1 := by
        rw [hs1]
        by_cases ho : (s.get i).once
        · rw [if_pos ho]
          exact Signal.detach_WF_any s L i hWF
        · rw [if_neg ho]
          exact ⟨L, hWF⟩
      have hlen1 : s1.nodes.length = s.nodes.length := by
        rw [hs1]
        by_cases ho : (s.get i).once
        · rw [if_pos ho]
          exact (Signal.detach_stable s L hWF i).2.1
        · rw [if_neg ho]
      have honce1 : (s1.get x).once = true := by
        rw [hs1]
        by_cases ho : (s.get i).once
        · rw [if_pos ho, ((Signal.detach_stable s L hWF i).2.2.2 x).1]
          exact honce
        · rw [if_neg ho]
          exact honce
      rcases hra : runActs s1 (env ((s1.get i).fid)) with ⟨s2, r, th⟩
      obtain ⟨hWx, hlenx, _, hstx⟩ := by
        have := runActs_stable (env ((s1.get i).fid)) s1 L1 hWF1
        rw [hra] at this
        exact this
      obtain ⟨L2, hWF2⟩ : ∃ L2, WF s2 L2 := hWx
      have hlen2 : s1.nodes.length ≤ s2.nodes.length := hlenx
      have hst2 : ∀ y, y < s1.nodes.length →
          (s2.get y).once = (s1.get y).once ∧ (s2.get y).fid = (s1.get y).fid ∧
          ((s1.get y).owner = false → (s2.get y).owner = false) := hstx
      have hx1 : x < s1.nodes.length := by omega
      by_cases hix : i = x
      · -- the once binding is visited right now and detached first
        have hdet1 : (s1.get x).owner = false := by
          rw [hs1, hix]
          rw [if_pos honce]
          exact detach_owner_false s L hWF x
        have hdet2 : (s2.get x).owner = false := (hst2 x hx1).2.2 hdet1
        cases th with
        | true =>
          rw [dispatchLoop_throw env wres args fuel s i s1 hs1 s2 r hra]
          exact hdet2
        | false =>
          rw [dispatchLoop_ok env wres args fuel s i s1 hs1 s2 r hra]
          have := (dispatchLoop_stable env wres args fuel s2 ((s2.get i).next) L2 hWF2).2.2
          have hx2 : x < s2.nodes.length := by omega
          exact ((this x hx2).2.2) hdet2
      · -- some other binding is visited; recurse
        have honce2 : (s2.get x).once = true := by
          rw [(hst2 x hx1).1]
          exact honce1
        cases th with
        | true =>
          rw [dispatchLoop_throw env wres args fuel s i s1 hs1 s2 r hra] at hcnt
          simp only [countInv, List.map_cons, List.map_nil, List.count_cons, List.count_nil] at hcnt
          rw [if_neg (show ¬ ((i == x) = true) by simp [hix])] at hcnt
          exact absurd hcnt (by simp)
        | false =>
          rw [dispatchLoop_ok env wres args fuel s i s1 hs1 s2 r hra] at hcnt ⊢
          have hcnt2 : 1 ≤ countInv x (dispatchLoop env wres args fuel s2 ((s2.get i).next)).trace := by
            simp only [countInv, List.map_cons, List.count_cons] at hcnt
            rw [if_neg (show ¬ ((i == x) = true) by simp [hix])] at hcnt
            simp only [countInv]
            omega
          exact ih s2 ((s2.get i).next) L2 hWF2 honce2 hcnt2

/-- Every invocation of a once binding is recorded with the binding
already detached: null owner and absent from the handlers() snapshot
taken at the moment of the call. -/
theorem dispatchLoop_once_events (env : Nat → List Act) (wres : Bool) (args : List Nat)
    (x : Nat) :
    ∀ (fuel : Nat) (s : Signal) (cur : Option Nat) (L : List Nat), WF s L →
    (s.get x).once = true →
    ∀ ev ∈ (dispatchLoop env wres args fuel s cur).trace, ev.id = x →
      ev.ownerAtCall = false ∧ x ∉ ev.handlersAtCall := by
  intro fuel
  induction fuel with
  | zero =>
    intro s cur L _ _ ev hev
    exact absurd hev (by simp [dispatchLoop])
  | succ fuel ih =>
    intro s cur L hWF honce
    cases cur with
    | none =>
      rw [dispatchLoop_none]
      intro ev hev
      exact absurd hev (by simp)
    | some i =>
      have hxlt : x < s.nodes.length := once_lt s x honce
      set s1 : Signal := if (s.get i).once then Signal.detach s i else s with hs1
      obtain ⟨L1, hWF1⟩ : ∃ L1, WF s1 L1 := by
        rw [hs1]
        by_cases ho : (s.get i).once
        · rw [if_pos ho]
          exact Signal.detach_WF_any s L i hWF
        · rw [if_neg ho]
          exact ⟨L, hWF⟩
      have hlen1 : s1.nodes.length = s.nodes.length := by
        rw [hs1]
        by_cases ho : (s.get i).once
        · rw [if_pos ho]
          exact (Signal.detach_stable s L hWF i).2.1
        · rw [if_neg ho]
      have honce1 : (s1.get x).once = true := by
        rw [hs1]
        by_cases ho : (s.get i).once
        · rw [if_pos ho, ((Signal.detach_stable s L hWF i).2.2.2 x).1]
          exact honce
        · rw [if_neg ho]
          exact honce
      have hx1 : x < s1.nodes.length := by omega
      -- the head event facts when the visited binding is x itself
      have hheadfact : i = x → (s1.get i).owner = false ∧ x ∉ s1.handlers := by
        intro hix
        subst hix
        have hdet1 : (s1.get i).owner = false := by
          rw [hs1, if_pos honce]
          exact detach_owner_false s L hWF i
        refine ⟨hdet1, ?_⟩
        rw [Signal.handlers_eq s1 L1 hWF1]
        intro hmem
        have := (hWF1.ownerIff i).mpr hmem
        rw [hdet1] at this
        exact absurd this (by simp)
      rcases hra : runActs s1 (env ((s1.get i).fid)) with ⟨s2, r, th⟩
      obtain ⟨hWx, hlenx, _, hstx⟩ := by
        have := runActs_stable (env ((s1.get i).fid)) s1 L1 hWF1
        rw [hra] at this
        exact this
      obtain ⟨L2, hWF2⟩ : ∃ L2, WF s2 L2 := hWx
      have honce2 : (s2.get x).once = true := by
        rw [(hstx x hx1).1]
        exact honce1
      cases th with
      | true =>
        rw [dispatchLoop_throw env wres args fuel s i s1 hs1 s2 r hra]
        intro ev hev hevx
        simp only [List.mem_singleton] at hev
        subst hev
        simp only [] at hevx
        obtain ⟨h1, h2⟩ := hheadfact hevx
        exact ⟨h1, h2⟩
      | false =>
        rw [dispatchLoop_ok env wres args fuel s i s1 hs1 s2 r hra]
        intro ev hev hevx
        simp only [List.mem_cons] at hev
        rcases hev with hev | hev
        · subst hev
          simp only [] at hevx
          obtain ⟨h1, h2⟩ := hheadfact hevx
          exact ⟨h1, h2⟩
        · exact ih s2 ((s2.get i).next) L2 hWF2 honce2 ev hev hevx

theorem Signal.dispatch_eq_disabled (env : Nat → List Act) (wres : Bool) (args : List Nat)
    (fuel : Nat) (s : Signal) (h : s.enabled = false) :
    Signal.dispatch env wres args fuel s = ⟨s, [], 0, false⟩ := by
  unfold Signal.dispatch
  rw [h]
  simp

theorem Signal.dispatch_eq_nohead (env : Nat → List Act) (wres : Bool) (args : List Nat)
    (fuel : Nat) (s : Signal) (he : s.enabled = true) (hh : s.head = none) :
    Signal.dispatch env wres args fuel s = ⟨s, [], 0, false⟩ := by
  unfold Signal.dispatch
  rw [he, hh]
  simp

theorem Signal.dispatch_eq_run (env : Nat → List Act) (wres : Bool) (args : List Nat)
    (fuel : Nat) (s : Signal) (h0 : Nat) (he : s.enabled = true) (hh : s.head = some h0) :
    Signal.dispatch env wres args fuel s = dispatchLoop env wres args fuel s (some h0) := by
  unfold Signal.dispatch
  rw [he, hh]
  simp

/-- All once-semantics facts of one dispatch call. -/
theorem Signal.dispatch_once (env : Nat → List Act) (wres : Bool) (args : List Nat)
    (fuel : Nat) (s : Signal) (L : List Nat) (x : Nat)
    (hWF : WF s L) (honce : (s.get x).once = true) :
    (∃ L2, WF (Signal.dispatch env wres args fuel s).state L2) ∧
    ((Signal.dispatch env wres args fuel s).state.get x).once = true ∧
    countInv x (Signal.dispatch env wres args fuel s).trace ≤ 1 ∧
    ((s.get x).owner = false →
      countInv x (Signal.dispatch env wres args fuel s).trace = 0 ∧
      ((Signal.dispatch env wres args fuel s).state.get x).owner = false) ∧
    (1 ≤ countInv x (Signal.dispatch env wres args fuel s).trace →
      ((Signal.dispatch env wres args fuel s).state.get x).owner = false) ∧
    (∀ ev ∈ (Signal.dispatch env wres args fuel s).trace, ev.id = x →
      ev.ownerAtCall = false ∧ x ∉ ev.handlersAtCall) := by
  have hxlt : x < s.nodes.length := once_lt s x honce
  by_cases he : s.enabled = false
  · rw [Signal.dispatch_eq_disabled env wres args fuel s he]
    exact ⟨⟨L, hWF⟩, honce, by simp [countInv], fun h => ⟨by simp [countInv], h⟩,
      by simp [countInv], fun ev hev => absurd hev (by simp)⟩
  · have he2 : s.enabled = true := by
      cases h : s.enabled with
      | false => exact absurd h he
      | true => rfl
    cases hh : s.head with
    | none =>
      rw [Signal.dispatch_eq_nohead env wres args fuel s he2 hh]
      exact ⟨⟨L, hWF⟩, honce, by simp [countInv], fun h => ⟨by simp [countInv], h⟩,
        by simp [countInv], fun ev hev => absurd hev (by simp)⟩
    | some h0 =>
      rw [Signal.dispatch_eq_run env wres args fuel s h0 he2 hh]
      obtain ⟨hWd, hlend, hstd⟩ := dispatchLoop_stable env wres args fuel s (some h0) L hWF
      refine ⟨hWd, by rw [(hstd x hxlt).1]; exact honce, ?_, ?_, ?_, ?_⟩
      · exact dispatchLoop_count_le_one env wres args fuel s (some h0) L hWF x
      · intro hof
        have hnr : ¬ Reach s h0 x := by
          intro hr
          have hh0 : h0 ∈ L := by
            have hhe := hWF.headEq s L
            rw [hh] at hhe
            cases hL2 : L with
            | nil =>
              rw [hL2] at hhe
              exact absurd hhe.symm (by simp)
            | cons a M =>
              rw [hL2] at hhe
              injection hhe with h2
              rw [h2]
              simp
          have hxm := WF_reach_mem s L hWF hh0 hr
          have := (hWF.ownerIff x).mpr hxm
          rw [hof] at this
          exact absurd this (by simp)
        have havoid := dispatchLoop_avoid env wres args x fuel s (some h0) L hWF hxlt
          (Or.inr ⟨h0, rfl, hnr⟩)
        constructor
        · rw [countInv, List.count_eq_zero]
          intro hmem
          simp only [List.mem_map] at hmem
          obtain ⟨ev, hev, hevid⟩ := hmem
          exact havoid ev hev hevid
        · exact ((hstd x hxlt).2.2) hof
      · exact dispatchLoop_once_detached env wres args x fuel s (some h0) L hWF honce
      · exact dispatchLoop_once_events env wres args x fuel s (some h0) L hWF honce

/-- Once-semantics across a whole sequence of dispatch calls: a once
binding is invoked at most once in total, and at each of its
invocations it is already detached. -/
theorem dispatchSeq_once (env : Nat → List Act) (wres : Bool) (x : Nat) :
    ∀ (specs : List (Nat × List Nat)) (s : Signal) (L : List Nat),
    WF s L → (s.get x).once = true →
    countInv x (dispatchSeq env wres specs s).2 ≤ 1 ∧
    ((s.get x).owner = false →
      countInv x (dispatchSeq env wres specs s).2 = 0 ∧
      ((dispatchSeq env wres specs s).1.get x).owner = false) ∧
    (1 ≤ countInv x (dispatchSeq env wres specs s).2 →
      ((dispatchSeq env wres specs s).1.get x).owner = false) ∧
    (∀ ev ∈ (dispatchSeq env wres specs s).2, ev.id = x →
      ev.ownerAtCall = false ∧ x ∉ ev.handlersAtCall) := by
  intro specs
  induction specs with
  | nil =>
    intro s L hWF honce
    exact ⟨by simp [dispatchSeq, countInv], fun h => ⟨by simp [dispatchSeq, countInv], h⟩,
      by simp [dispatchSeq, countInv], fun ev hev => absurd hev (by simp [dispatchSeq])⟩
  | cons spec rest ih =>
    intro s L hWF honce
    obtain ⟨fuel, args⟩ := spec
    obtain ⟨⟨L2, hWF2⟩, honce2, hcle, hoff, hdet, hevs⟩ :=
      Signal.dispatch_once env wres args fuel s L x hWF honce
    obtain ⟨ihle, ihoff, ihdet, ihevs⟩ :=
      ih (Signal.dispatch env wres args fuel s).state L2 hWF2 honce2
    have hsplit : (dispatchSeq env wres ((fuel, args) :: rest) s).2 =
        (Signal.dispatch env wres args fuel s).trace ++
          (dispatchSeq env wres rest (Signal.dispatch env wres args fuel s).state).2 := by
      simp only [dispatchSeq]
    have hstate : (dispatchSeq env wres ((fuel, args) :: rest) s).1 =
        (dispatchSeq env wres rest (Signal.dispatch env wres args fuel s).state).1 := by
      simp only [dispatchSeq]
    have hcnt : countInv x (dispatchSeq env wres ((fuel, args) :: rest) s).2 =
        countInv x (Signal.dispatch env wres args fuel s).trace +
          countInv x (dispatchSeq env wres rest (Signal.dispatch env wres args fuel s).state).2 := by
      rw [hsplit]
      simp [countInv]
    refine ⟨?_, ?_, ?_, ?_⟩
    · rw [hcnt]
      by_cases hc1 : countInv x (Signal.dispatch env wres args fuel s).trace = 0
      · omega
      · have h1 : 1 ≤ countInv x (Signal.dispatch env wres args fuel s).trace := by omega
        have hzero := (ihoff (hdet h1)).1
        omega
    · intro hof
      obtain ⟨hz1, hf1⟩ := hoff hof
      obtain ⟨hz2, hf2⟩ := ihoff hf1
      rw [hcnt, hstate]
      exact ⟨by omega, hf2⟩
    · intro hge
      rw [hstate]
      rw [hcnt] at hge
      by_cases hc2 : 1 ≤ countInv x (dispatchSeq env wres rest (Signal.dispatch env wres args fuel s).state).2
      · exact ihdet hc2
      · have h1 : 1 ≤ countInv x (Signal.dispatch env wres args fuel s).trace := by omega
        exact (ihoff (hdet h1)).2
    · intro ev hev hevx
      rw [hsplit] at hev
      rcases List.mem_append.mp hev with hev | hev
      · exact hevs ev hev hevx
      · exact ihevs ev hev hevx

/-- A handler body consisting only of resolver calls leaves the state
unchanged, never throws, and resolves once per call. -/
theorem runActs_resolveOnly (p : List Act) (hp : ∀ a ∈ p, a = Act.resolveA) :
    ∀ s : Signal, runActs s p = (s, p.length, false) := by
  induction p with
  | nil => intro s; rfl
  | cons a rest ih =>
    intro s
    have ha : a = Act.resolveA := hp a (by simp)
    subst ha
    have hrest : ∀ a ∈ rest, a = Act.resolveA := fun a h => hp a (by simp [h])
    show runActs s (Act.resolveA :: rest) = _
    simp only [runActs, runAct1]
    rw [ih hrest s]
    simp [Nat.add_comm]

/-- Every event of a dispatch records the forwarded argument list and
whether the shared resolver was passed in front. -/
theorem dispatchLoop_args (env : Nat → List Act) (wres : Bool) (args : List Nat) :
    ∀ (fuel : Nat) (s : Signal) (cur : Option Nat),
    ∀ ev ∈ (dispatchLoop env wres args fuel s cur).trace,
      ev.argsAtCall = args ∧ ev.resolverPassed = wres := by
  intro fuel
  induction fuel with
  | zero =>
    intro s cur ev hev
    exact absurd hev (by simp [dispatchLoop])
  | succ fuel ih =>
    intro s cur
    cases cur with
    | none =>
      rw [dispatchLoop_none]
      intro ev hev
      exact absurd hev (by simp)
    | some i =>
      set s1 : Signal := if (s.get i).once then Signal.detach s i else s with hs1
      rcases hra : runActs s1 (env ((s1.get i).fid)) with ⟨s2, r, th⟩
      cases th with
      | true =>
        rw [dispatchLoop_throw env wres args fuel s i s1 hs1 s2 r hra]
        intro ev hev
        simp only [List.mem_singleton] at hev
        subst hev
        exact ⟨rfl, rfl⟩
      | false =>
        rw [dispatchLoop_ok env wres args fuel s i s1 hs1 s2 r hra]
        intro ev hev
        simp only [List.mem_cons] at hev
        rcases hev with hev | hev
        · subst hev
          exact ⟨rfl, rfl⟩
        · exact ih s2 ((s2.get i).next) ev hev

/-- Shape of a raising dispatch trace: it ends exactly at the faulting
invocation, and no earlier invocation threw. -/
theorem dispatchLoop_raised (env : Nat → List Act) (wres : Bool) (args : List Nat) :
    ∀ (fuel : Nat) (s : Signal) (cur : Option Nat),
    ((dispatchLoop env wres args fuel s cur).raised = true →
      ∃ pre ev, (dispatchLoop env wres args fuel s cur).trace = pre ++ [ev] ∧
        ev.threw = true ∧ ∀ e ∈ pre, e.threw = false) ∧
    ((dispatchLoop env wres args fuel s cur).raised = false →
      ∀ e ∈ (dispatchLoop env wres args fuel s cur).trace, e.threw = false) := by
  intro fuel
  induction fuel with
  | zero =>
    intro s cur
    exact ⟨fun h => absurd h (by simp [dispatchLoop]),
      fun _ e he => absurd he (by simp [dispatchLoop])⟩
  | succ fuel ih =>
    intro s cur
    cases cur with
    | none =>
      rw [dispatchLoop_none]
      exact ⟨fun h => absurd h (by simp), fun _ e he => absurd he (by simp)⟩
    | some i =>
      set s1 : Signal := if (s.get i).once then Signal.detach s i else s with hs1
      rcases hra : runActs s1 (env ((s1.get i).fid)) with ⟨s2, r, th⟩
      cases th with
      | true =>
        rw [dispatchLoop_throw env wres args fuel s i s1 hs1 s2 r hra]
        refine ⟨fun _ => ⟨[], ⟨i, (s1.get i).owner, s1.hasAny, s1.handlers, args, wres, true⟩,
          rfl, rfl, fun e he => absurd he (by simp)⟩, fun h => absurd h (by simp)⟩
      | false =>
        rw [dispatchLoop_ok env wres args fuel s i s1 hs1 s2 r hra]
        obtain ⟨ih1, ih2⟩ := ih s2 ((s2.get i).next)
        constructor
        · intro h
          obtain ⟨pre, ev, htr, hth, hpre⟩ := ih1 h
          refine ⟨⟨i, (s1.get i).owner, s1.hasAny, s1.handlers, args, wres, false⟩ :: pre, ev, ?_, hth, ?_⟩
          · show _ :: (dispatchLoop env wres args fuel s2 ((s2.get i).next)).trace = _
            rw [htr]
            rfl
          · intro e he
            simp only [List.mem_cons] at he
            rcases he with he | he
            · subst he
              rfl
            · exact hpre e he
        · intro h e he
          simp only [List.mem_cons] at he
          rcases he with he | he
          · subst he
            rfl
          · exact ih2 h e he


/-- The dispatch walk over bindings whose handlers only call the shared
resolver (or do nothing): every binding of the remaining segment is
invoked exactly once in list order, nothing is raised, and the resolver
is called once per resolveA action of the invoked handlers. -/
theorem dispatchLoop_resWalk (env : Nat → List Act) (wres : Bool) (args : List Nat) :
    ∀ (B A : List Nat) (s : Signal) (fuel : Nat), WF s (A ++ B) →
    (∀ b ∈ B, ∀ a ∈ env ((s.get b).fid), a = Act.resolveA) →
    B.length ≤ fuel →
    (dispatchLoop env wres args fuel s B.head?).trace.map Event.id = B ∧
    (dispatchLoop env wres args fuel s B.head?).raised = false ∧
    (dispatchLoop env wres args fuel s B.head?).resolves =
      (B.map (fun b => (env ((s.get b).fid)).length)).sum := by
  intro B
  induction B with
  | nil =>
    intro A s fuel _ _ _
    rw [show (([] : List Nat).head?) = none from rfl, dispatchLoop_none]
    exact ⟨rfl, rfl, rfl⟩
  | cons b B2 ihB =>
    intro A s fuel hWF henv hfuel
    cases fuel with
    | zero => exact absurd hfuel (by simp)
    | succ fuel =>
      rw [show ((b :: B2).head?) = some b from rfl]
      have hnextb : (s.get b).next = B2.head? := (WF_split s A b B2 hWF).2.2.1
      set s1 : Signal := if (s.get b).once then Signal.detach s b else s with hs1
      -- facts about the state after the once auto-detach
      have hmain :
          (∃ A1, WF s1 (A1 ++ B2)) ∧
          (s1.get b).next = (s.get b).next ∧
          (∀ j, (s1.get j).fid = (s.get j).fid) := by
        rw [hs1]
        by_cases ho : (s.get b).once
        · rw [if_pos ho]
          obtain ⟨_, _, hgi, hof, _⟩ := Signal.detach_desc s A b B2 hWF
          refine ⟨⟨A, Signal.detach_WF s A b B2 hWF⟩, by rw [hgi], fun j => (hof j).2⟩
        · rw [if_neg ho]
          refine ⟨⟨A ++ [b], ?_⟩, rfl, fun j => rfl⟩
          have he : (A ++ [b]) ++ B2 = A ++ b :: B2 := by simp
          rw [he]
          exact hWF
      obtain ⟨⟨A1, hWF1⟩, hnext1, hfid1⟩ := hmain
      have hacts : ∀ a ∈ env ((s1.get b).fid), a = Act.resolveA := by
        rw [hfid1 b]
        exact henv b (by simp)
      have hra : runActs s1 (env ((s1.get b).fid)) =
          (s1, (env ((s1.get b).fid)).length, false) :=
        runActs_resolveOnly (env ((s1.get b).fid)) hacts s1
      rw [dispatchLoop_ok env wres args fuel s b s1 hs1 s1 (env ((s1.get b).fid)).length hra]
      have hcur : (s1.get b).next = B2.head? := by
        rw [hnext1, hnextb]
      have henv2 : ∀ b2 ∈ B2, ∀ a ∈ env ((s1.get b2).fid), a = Act.resolveA := by
        intro b2 hb2
        rw [hfid1 b2]
        exact henv b2 (by simp [hb2])
      have hfuel2 : B2.length ≤ fuel := by
        simpa using hfuel
      have hrec :
          (dispatchLoop env wres args fuel s1 ((s1.get b).next)).trace.map Event.id = B2 ∧
          (dispatchLoop env wres args fuel s1 ((s1.get b).next)).raised = false ∧
          (dispatchLoop env wres args fuel s1 ((s1.get b).next)).resolves =
            (B2.map (fun b2 => (env ((s1.get b2).fid)).length)).sum := by
        rw [hcur]
        exact ihB A1 s1 fuel hWF1 henv2 hfuel2
      obtain ⟨hrec1, hrec2, hrec3⟩ := hrec
      refine ⟨?_, hrec2, ?_⟩
      · show (_ :: (dispatchLoop env wres args fuel s1 ((s1.get b).next)).trace).map Event.id = _
        rw [List.map_cons, hrec1]
      · show (env ((s1.get b).fid)).length +
            (dispatchLoop env wres args fuel s1 ((s1.get b).next)).resolves = _
        rw [hrec3, hfid1 b]
        have hmc : B2.map (fun b2 => (env ((s1.get b2).fid)).length) =
            B2.map (fun b2 => (env ((s.get b2).fid)).length) :=
          List.map_congr_left (fun b2 _ => by rw [hfid1 b2])
        rw [hmc]
        simp

/-- handlers() of a signal whose _head is null is empty. -/
theorem Signal.handlers_nohead (s : Signal) (h : s.head = none) : s.handlers = [] := by
  unfold Signal.handlers
  rw [h]
  cases hl : s.nodes.length with
  | zero => rfl
  | succ n => rfl

/-- Running a handler body made only of detach calls on an
already-detached binding leaves the state unchanged: every such call is
the documented no-op. -/
theorem runActs_noopDetach (b : Nat) (p : List Act)
    (hp : ∀ a ∈ p, a = Act.detachB b ∨ a = Act.detachS b) :
    ∀ s : Signal, (s.get b).owner = false → runActs s p = (s, 0, false) := by
  induction p with
  | nil => intro s _; rfl
  | cons a rest ih =>
    intro s hown
    have hrest : ∀ x ∈ rest, x = Act.detachB b ∨ x = Act.detachS b :=
      fun x hx => hp x (by simp [hx])
    rcases hp a (by simp) with ha | ha
    · subst ha
      show runActs s (Act.detachB b :: rest) = _
      simp only [runActs, runAct1]
      rw [show SignalBindingImpl.detach s b = (s, false) by
        unfold SignalBindingImpl.detach; rw [hown]; simp]
      rw [ih hrest s hown]
      rfl
    · subst ha
      show runActs s (Act.detachS b :: rest) = _
      simp only [runActs, runAct1]
      rw [Signal.detach_noop s b hown]
      rw [ih hrest s hown]
      rfl

/-- Running a handler body made only of detach calls on the handler
binding itself: the binding is spliced out (first call) and the rest are
no-ops; the binding keeps its stale next link, no exception, no resolver
call. -/
theorem runActs_selfDetach (b : Nat) (p : List Act)
    (hp : ∀ a ∈ p, a = Act.detachB b ∨ a = Act.detachS b)
    (s : Signal) (A B2 : List Nat) (hWF : WF s (A ++ b :: B2)) :
    ∃ s2 A1, runActs s p = (s2, 0, false) ∧ WF s2 (A1 ++ B2) ∧
      (s2.get b).next = (s.get b).next ∧
      (∀ j, (s2.get j).fid = (s.get j).fid) := by
  cases p with
  | nil =>
    refine ⟨s, A ++ [b], rfl, ?_, rfl, fun j => rfl⟩
    rw [show (A ++ [b]) ++ B2 = A ++ b :: B2 by simp]
    exact hWF
  | cons a rest =>
    have hrest : ∀ x ∈ rest, x = Act.detachB b ∨ x = Act.detachS b :=
      fun x hx => hp x (by simp [hx])
    have hown : (s.get b).owner = true := (hWF.ownerIff b).mpr (by simp)
    obtain ⟨hlen, hen, hgi, hof, _⟩ := Signal.detach_desc s A b B2 hWF
    have hown2 : ((Signal.detach s b).get b).owner = false := by rw [hgi]
    have hrest2 : runActs (Signal.detach s b) rest = (Signal.detach s b, 0, false) :=
      runActs_noopDetach b rest hrest (Signal.detach s b) hown2
    refine ⟨Signal.detach s b, A, ?_, Signal.detach_WF s A b B2 hWF,
      by rw [hgi], fun j => (hof j).2⟩
    rcases hp a (by simp) with ha | ha
    · subst ha
      show runActs s (Act.detachB b :: rest) = _
      simp only [runActs, runAct1]
      rw [show (SignalBindingImpl.detach s b).1 = Signal.detach s b by
        unfold SignalBindingImpl.detach; rw [hown]; simp]
      rw [hrest2]
      rfl
    · subst ha
      show runActs s (Act.detachS b :: rest) = _
      simp only [runActs, runAct1]
      rw [hrest2]
      rfl

/-- The dispatch walk over bindings whose handlers only detach their own
binding (or do nothing): traversal is not truncated — every binding of
the remaining segment, including all those after a self-detaching one,
is invoked exactly once in list order, and nothing is raised. -/
theorem dispatchLoop_selfWalk (env : Nat → List Act) (wres : Bool) (args : List Nat) :
    ∀ (B A : List Nat) (s : Signal) (fuel : Nat), WF s (A ++ B) →
    (∀ b ∈ B, ∀ a ∈ env ((s.get b).fid), a = Act.detachB b ∨ a = Act.detachS b) →
    B.length ≤ fuel →
    (dispatchLoop env wres args fuel s B.head?).trace.map Event.id = B ∧
    (dispatchLoop env wres args fuel s B.head?).raised = false := by
  intro B
  induction B with
  | nil =>
    intro A s fuel _ _ _
    rw [show (([] : List Nat).head?) = none from rfl, dispatchLoop_none]
    exact ⟨rfl, rfl⟩
  | cons b B2 ihB =>
    intro A s fuel hWF henv hfuel
    cases fuel with
    | zero => exact absurd hfuel (by simp)
    | succ fuel =>
      rw [show ((b :: B2).head?) = some b from rfl]
      have hnextb : (s.get b).next = B2.head? := (WF_split s A b B2 hWF).2.2.1
      set s1 : Signal := if (s.get b).once then Signal.detach s b else s with hs1
      have hmain : ∃ s2 A1, runActs s1 (env ((s1.get b).fid)) = (s2, 0, false) ∧
          WF s2 (A1 ++ B2) ∧ (s2.get b).next = (s.get b).next ∧
          (∀ j, (s2.get j).fid = (s.get j).fid) := by
        rw [hs1]
        by_cases ho : (s.get b).once
        · rw [if_pos ho]
          obtain ⟨_, _, hgi, hof, _⟩ := Signal.detach_desc s A b B2 hWF
          have hfb : ((Signal.detach s b).get b).fid = (s.get b).fid := (hof b).2
          have hown2 : ((Signal.detach s b).get b).owner = false := by rw [hgi]
          refine ⟨Signal.detach s b, A, ?_, Signal.detach_WF s A b B2 hWF,
            by rw [hgi], fun j => (hof j).2⟩
          rw [hfb]
          exact runActs_noopDetach b (env ((s.get b).fid)) (henv b (by simp))
            (Signal.detach s b) hown2
        · rw [if_neg ho]
          exact runActs_selfDetach b (env ((s.get b).fid)) (henv b (by simp)) s A B2 hWF
      obtain ⟨s2, A1, hra, hWF2, hnext2, hfid2⟩ := hmain
      rw [dispatchLoop_ok env wres args fuel s b s1 hs1 s2 0 hra]
      have hcur : (s2.get b).next = B2.head? := by
        rw [hnext2, hnextb]
      have henv2 : ∀ b2 ∈ B2, ∀ a ∈ env ((s2.get b2).fid),
          a = Act.detachB b2 ∨ a = Act.detachS b2 := by
        intro b2 hb2
        rw [hfid2 b2]
        exact henv b2 (by simp [hb2])
      have hfuel2 : B2.length ≤ fuel := by
        simpa using hfuel
      have hrec :
          (dispatchLoop env wres args fuel s2 ((s2.get b).next)).trace.map Event.id = B2 ∧
          (dispatchLoop env wres args fuel s2 ((s2.get b).next)).raised = false := by
        rw [hcur]
        exact ihB A1 s2 fuel hWF2 henv2 hfuel2
      obtain ⟨hrec1, hrec2⟩ := hrec
      refine ⟨?_, hrec2⟩
      show (_ :: (dispatchLoop env wres args fuel s2 ((s2.get b).next)).trace).map Event.id = _
      rw [List.map_cons, hrec1]

/-- The dispatch walk over an already-bulk-detached chain: _head is
null, every remaining node has null owner, yet iteration keeps following
the intact next links, so every remaining handler is still invoked, each
observing itself detached (null owner, hasAny() false, handlers()
empty). -/
theorem dispatchLoop_frozenWalk (env : Nat → List Act) (wres : Bool) (args : List Nat) :
    ∀ (B : List Nat) (s : Signal) (fuel : Nat) (pv pe : Option Nat),
    s.head = none →
    dseg s B pv B.head? pe none →
    (∀ b ∈ B, (s.get b).once = false ∧ env ((s.get b).fid) = []) →
    B.length ≤ fuel →
    dispatchLoop env wres args fuel s B.head? =
      ⟨s, B.map (fun b => ⟨b, (s.get b).owner, false, [], args, wres, false⟩), 0, false⟩ := by
  intro B
  induction B with
  | nil =>
    intro s fuel pv pe _ _ _ _
    rw [show (([] : List Nat).head?) = none from rfl]
    cases fuel with
    | zero => rfl
    | succ n =>
      rw [dispatchLoop_none]
      rfl
  | cons b B2 ih =>
    intro s fuel pv pe hh hseg henv hfuel
    obtain ⟨_, hprevb, hseg2⟩ := hseg
    cases fuel with
    | zero => exact absurd hfuel (by simp)
    | succ fuel =>
      rw [show ((b :: B2).head?) = some b from rfl]
      obtain ⟨honce, hprog⟩ := henv b (by simp)
      have hs1 : s = (if (s.get b).once then Signal.detach s b else s) := by
        rw [honce]
        simp
      have hra : runActs s (env ((s.get b).fid)) = (s, 0, false) := by
        rw [hprog]
        rfl
      rw [dispatchLoop_ok env wres args fuel s b s hs1 s 0 hra]
      have hnext : (s.get b).next = B2.head? := by
        cases B2 with
        | nil =>
          obtain ⟨_, h2⟩ := hseg2
          rw [← h2]
          rfl
        | cons c B3 =>
          obtain ⟨h1, _, _⟩ := hseg2
          rw [h1]
          rfl
      rw [hnext]
      rw [ih s fuel (some b) pe hh (by rw [← hnext]; exact hseg2)
        (fun x hx => henv x (by simp [hx])) (by simpa using hfuel)]
      have h1 : s.hasAny = false := by
        unfold Signal.hasAny
        rw [hh]
        rfl
      have h2 : s.handlers = [] := Signal.handlers_nohead s hh
      rw [h1, h2]
      rfl

/-- The dispatch walk in which one designated handler calls detachAll()
on the dispatching signal and all other handlers do nothing: traversal
does not stop at the bulk detach — every binding of the original chain
is still invoked, in order, and every binding after the detachAll point
is already detached when invoked (null owner, hasAny() false,
handlers() empty), because detachAll leaves the next links intact. -/
theorem dispatchLoop_detachAllWalk (env : Nat → List Act) (wres : Bool) (args : List Nat) :
    ∀ (P A : List Nat) (f : Nat) (R : List Nat) (s : Signal) (fuel : Nat),
    WF s (A ++ (P ++ f :: R)) →
    (∀ b ∈ P ++ f :: R, (s.get b).once = false) →
    (∀ b ∈ P, env ((s.get b).fid) = []) →
    env ((s.get f).fid) = [Act.detachAllA] →
    (∀ b ∈ R, env ((s.get b).fid) = []) →
    (P ++ f :: R).length ≤ fuel →
    (dispatchLoop env wres args fuel s (P ++ f :: R).head?).trace.map Event.id = P ++ f :: R ∧
    (dispatchLoop env wres args fuel s (P ++ f :: R).head?).raised = false ∧
    (∀ e ∈ (dispatchLoop env wres args fuel s (P ++ f :: R).head?).trace, e.id ∈ R →
      e.ownerAtCall = false ∧ e.hasAnyAtCall = false ∧ e.handlersAtCall = []) := by
  intro P
  induction P with
  | nil =>
    intro A f R s fuel hWF honce _ hprogf hprogR hfuel
    cases fuel with
    | zero => exact absurd hfuel (by simp)
    | succ fuel =>
      rw [show ((([] : List Nat) ++ f :: R).head?) = some f from rfl]
      have honcef : (s.get f).once = false := honce f (by simp)
      have hs1 : s = (if (s.get f).once then Signal.detach s f else s) := by
        rw [honcef]
        simp
      have hra : runActs s (env ((s.get f).fid)) = (Signal.detachAll s, 0, false) := by
        rw [hprogf]
        rfl
      rw [dispatchLoop_ok env wres args fuel s f s hs1 (Signal.detachAll s) 0 hra]
      obtain ⟨hget, hhd, htd, _, _⟩ := Signal.detachAll_desc s (A ++ f :: R) hWF
      have hnextf : (s.get f).next = R.head? := (WF_split s A f R hWF).2.2.1
      have hmemf : f ∈ A ++ f :: R := by simp
      have hnextfd : ((Signal.detachAll s).get f).next = R.head? := by
        rw [hget f, if_pos hmemf]
        exact hnextf
      have hsegR := (WF_split s A f R hWF).2.2.2.2
      have hsegRd : dseg (Signal.detachAll s) R (some f) R.head?
          ((A ++ f :: R).getLast?) none := by
        refine dseg_congr s (Signal.detachAll s) R (some f) R.head? _ none ?_ ?_
        · intro j _
          rw [hget j]
          by_cases hj : j ∈ A ++ f :: R
          · rw [if_pos hj]
            exact ⟨rfl, rfl⟩
          · rw [if_neg hj]
            exact ⟨rfl, rfl⟩
        · rw [← hnextf]
          exact hsegR
      have henvR : ∀ r ∈ R, ((Signal.detachAll s).get r).once = false ∧
          env (((Signal.detachAll s).get r).fid) = [] := by
        intro r hr
        have hmr : r ∈ A ++ f :: R := by simp [hr]
        rw [hget r, if_pos hmr]
        exact ⟨honce r (by simp [hr]), hprogR r hr⟩
      have hfz := dispatchLoop_frozenWalk env wres args R (Signal.detachAll s) fuel
        (some f) ((A ++ f :: R).getLast?) hhd hsegRd henvR (by simpa using hfuel)
      rw [hnextfd, hfz]
      have hfR : f ∉ R := (nodup_split A f R (hWF.nodup s _)).2.1
      refine ⟨?_, rfl, ?_⟩
      · show (_ :: R.map _).map Event.id = f :: R
        rw [List.map_cons, List.map_map]
        have hm2 : R.map (Event.id ∘ fun b =>
            (⟨b, ((Signal.detachAll s).get b).owner, false, [], args, wres, false⟩ : Event)) = R :=
          (List.map_congr_left (fun b _ => rfl)).trans (List.map_id R)
        rw [hm2]
      · intro e he heR
        rcases List.mem_cons.mp he with he | he
        · subst he
          exact absurd heR hfR
        · obtain ⟨r, hr, hre⟩ := List.mem_map.mp he
          subst hre
          have hmr : r ∈ A ++ f :: R := by simp [hr]
          refine ⟨?_, rfl, rfl⟩
          show ((Signal.detachAll s).get r).owner = false
          rw [hget r, if_pos hmr]
  | cons p P2 ihP =>
    intro A f R s fuel hWF honce hprogP hprogf hprogR hfuel
    cases fuel with
    | zero => exact absurd hfuel (by simp)
    | succ fuel =>
      rw [show (((p :: P2) ++ f :: R).head?) = some p from rfl]
      have honcep : (s.get p).once = false := honce p (by simp)
      have hs1 : s = (if (s.get p).once then Signal.detach s p else s) := by
        rw [honcep]
        simp
      have hra : runActs s (env ((s.get p).fid)) = (s, 0, false) := by
        rw [hprogP p (by simp)]
        rfl
      rw [dispatchLoop_ok env wres args fuel s p s hs1 s 0 hra]
      have hnextp : (s.get p).next = (P2 ++ f :: R).head? :=
        (WF_split s A p (P2 ++ f :: R) hWF).2.2.1
      have hWF2 : WF s ((A ++ [p]) ++ (P2 ++ f :: R)) := by
        rw [show (A ++ [p]) ++ (P2 ++ f :: R) = A ++ p :: (P2 ++ f :: R) by simp]
        exact hWF
      have hrec := ihP (A ++ [p]) f R s fuel hWF2
        (fun b hb => honce b (by simp [List.mem_append] at hb ⊢; tauto))
        (fun b hb => hprogP b (by simp [hb])) hprogf hprogR (by simpa using hfuel)
      obtain ⟨hrec1, hrec2, hrec3⟩ := hrec
      rw [hnextp]
      have hpR : p ∉ R := by
        have h2 := (nodup_split A p (P2 ++ f :: R) (hWF.nodup s _)).2.1
        intro hc
        exact h2 (by simp [hc])
      refine ⟨?_, hrec2, ?_⟩
      · show (_ :: (dispatchLoop env wres args fuel s (P2 ++ f :: R).head?).trace).map
            Event.id = _
        rw [List.map_cons, hrec1]
        rfl
      · intro e he heR
        rcases List.mem_cons.mp he with he | he
        · subst he
          exact absurd heR hpR
        · exact hrec3 e he heR

/-- Fields of a surviving binding are untouched by a later add. -/
theorem Signal.addBinding_fields_old (s : Signal) (L : List Nat) (o : Bool) (f : Nat)
    (hWF : WF s L) (j : Nat) (hj : j ≠ s.nodes.length) :
    ((s.addBinding o f).1.get j).once = (s.get j).once ∧
    ((s.addBinding o f).1.get j).fid = (s.get j).fid := by
  rw [Signal.addBinding_get s L o f hWF j, if_neg hj]
  by_cases ht : s.tail = some j
  · rw [if_pos ht]
    exact ⟨rfl, rfl⟩
  · rw [if_neg ht]
    exact ⟨rfl, rfl⟩

/-- Effect of a sequence of add / once calls on an invariant state: the
new bindings are appended in call order at consecutive fresh indices,
the invariant holds for the extended list, and every binding records the
once flag and handler id it was created with. -/
theorem buildGo_facts :
    ∀ (specs : List (Bool × Nat)) (s : Signal) (L : List Nat), WF s L →
    WF (buildGo s specs) (L ++ List.range' s.nodes.length specs.length) ∧
    (buildGo s specs).nodes.length = s.nodes.length + specs.length ∧
    (buildGo s specs).enabled = s.enabled ∧
    (∀ j, j < s.nodes.length →
      ((buildGo s specs).get j).once = (s.get j).once ∧
      ((buildGo s specs).get j).fid = (s.get j).fid) ∧
    (∀ k, (hk : k < specs.length) →
      ((buildGo s specs).get (s.nodes.length + k)).once = (specs.get ⟨k, hk⟩).1 ∧
      ((buildGo s specs).get (s.nodes.length + k)).fid = (specs.get ⟨k, hk⟩).2) := by
  intro specs
  induction specs with
  | nil =>
    intro s L hWF
    refine ⟨by simpa using hWF, by simp [buildGo], rfl, fun j _ => ⟨rfl, rfl⟩,
      fun k hk => absurd hk (by simp)⟩
  | cons p rest ih =>
    intro s L hWF
    have hWF1 : WF (s.addBinding p.1 p.2).1 (L ++ [s.nodes.length]) :=
      Signal.addBinding_WF s L p.1 p.2 hWF
    have hlen1 : (s.addBinding p.1 p.2).1.nodes.length = s.nodes.length + 1 :=
      Signal.addBinding_len s p.1 p.2
    have hgo : buildGo s (p :: rest) = buildGo (s.addBinding p.1 p.2).1 rest := rfl
    obtain ⟨ihWF, ihlen, ihen, ihold, ihnew⟩ := ih (s.addBinding p.1 p.2).1
      (L ++ [s.nodes.length]) hWF1
    rw [hlen1] at ihWF ihlen ihold ihnew
    have hrange : (L ++ [s.nodes.length]) ++ List.range' (s.nodes.length + 1) rest.length
        = L ++ List.range' s.nodes.length (p :: rest).length := by
      rw [List.append_assoc]
      rw [show (p :: rest).length = rest.length + 1 from rfl]
      rw [List.range'_succ]
      rfl
    rw [hgo]
    refine ⟨by rw [← hrange]; exact ihWF, by rw [ihlen, List.length_cons]; omega,
      by rw [ihen]; exact Signal.addBinding_enabled s p.1 p.2, ?_, ?_⟩
    · intro j hj
      have hj1 : j < s.nodes.length + 1 := by omega
      obtain ⟨h1, h2⟩ := ihold j hj1
      obtain ⟨h3, h4⟩ := Signal.addBinding_fields_old s L p.1 p.2 hWF j (by omega)
      exact ⟨by rw [h1, h3], by rw [h2, h4]⟩
    · intro k hk
      cases k with
      | zero =>
        have h0 : s.nodes.length + 0 = s.nodes.length := by omega
        rw [h0]
        obtain ⟨h1, h2⟩ := ihold s.nodes.length (by omega)
        have hgn : (s.addBinding p.1 p.2).1.get s.nodes.length
            = ⟨p.1, p.2, none, s.tail, true⟩ := by
          rw [Signal.addBinding_get s L p.1 p.2 hWF s.nodes.length, if_pos rfl]
        exact ⟨by rw [h1, hgn]; rfl, by rw [h2, hgn]; rfl⟩
      | succ k2 =>
        have hk2 : k2 < rest.length := by
          have := hk
          simp at this
          omega
        have hidx : s.nodes.length + (k2 + 1) = (s.nodes.length + 1) + k2 := by omega
        rw [hidx]
        obtain ⟨h1, h2⟩ := ihnew k2 hk2
        exact ⟨by rw [h1]; rfl, by rw [h2]; rfl⟩

/-- A freshly built signal: the invariant list is exactly the indices in
insertion order, the signal is enabled, and every binding carries the
once flag and handler id of the add / once call that created it. -/
theorem buildSignal_facts (specs : List (Bool × Nat)) :
    WF (buildSignal specs) (List.range specs.length) ∧
    (buildSignal specs).enabled = true ∧
    (buildSignal specs).nodes.length = specs.length ∧
    (∀ k, (hk : k < specs.length) →
      ((buildSignal specs).get k).once = (specs.get ⟨k, hk⟩).1 ∧
      ((buildSignal specs).get k).fid = (specs.get ⟨k, hk⟩).2) := by
  unfold buildSignal
  obtain ⟨h1, h2, h3, _, h5⟩ := buildGo_facts specs emptySignal [] WF_empty
  have hlen0 : emptySignal.nodes.length = 0 := rfl
  rw [hlen0] at h1 h2 h5
  refine ⟨?_, ?_, ?_, ?_⟩
  · rw [List.range_eq_range']
    simpa using h1
  · rw [h3]
    rfl
  · rw [h2]
    omega
  · intro k hk
    have := h5 k hk
    simpa using this

/-- dispatch preserves the structural invariant for some attached
list. -/
theorem Signal.dispatch_WF (env : Nat → List Act) (wres : Bool) (args : List Nat)
    (fuel : Nat) (s : Signal) (L : List Nat) (hWF : WF s L) :
    ∃ L2, WF (Signal.dispatch env wres args fuel s).state L2 := by
  by_cases he : s.enabled = false
  · rw [Signal.dispatch_eq_disabled env wres args fuel s he]
    exact ⟨L, hWF⟩
  · have he2 : s.enabled = true := by
      cases h : s.enabled with
      | false => exact absurd h he
      | true => rfl
    cases hh : s.head with
    | none =>
      rw [Signal.dispatch_eq_nohead env wres args fuel s he2 hh]
      exact ⟨L, hWF⟩
    | some h0 =>
      rw [Signal.dispatch_eq_run env wres args fuel s h0 he2 hh]
      exact (dispatchLoop_stable env wres args fuel s (some h0) L hWF).1

/-! ## The claims -/

/-- C1: for every binding registered via Signal.once (once flag set),
across any sequence of dispatch calls its handler is invoked at most
once in total, and at every invocation the binding has already been
detached: the owner observed by the handler is null and the binding is
absent from the handlers() snapshot taken at the moment of the call —
even within the same dispatch that triggers it. -/
theorem claim_C1 (env : Nat → List Act) (wres : Bool)
    (specs : List (Nat × List Nat)) (s : Signal) (L : List Nat) (x : Nat)
    (hWF : WF s L) (honce : (s.get x).once = true) :
    countInv x (dispatchSeq env wres specs s).2 ≤ 1 ∧
    ∀ ev ∈ (dispatchSeq env wres specs s).2, ev.id = x →
      ev.ownerAtCall = false ∧ x ∉ ev.handlersAtCall := by
  obtain ⟨h1, _, _, h4⟩ := dispatchSeq_once env wres x specs s L hWF honce
  exact ⟨h1, h4⟩

theorem claim_C1_witness :
    countInv 0 (dispatchSeq (fun _ => []) false [(1, []), (1, [])]
      (buildSignal [(true, 5)])).2 ≤ 1 :=
  (claim_C1 (fun _ => []) false [(1, []), (1, [])] (buildSignal [(true, 5)])
    (List.range 1) 0 (buildSignal_facts [(true, 5)]).1 (by decide)).1

/-- C2 counterexample: detaching a binding does NOT null its links.  In
a two-binding signal, detaching the first binding clears its owner but
its next link still points at the second binding, refuting "Detached
bindings have null owner and null links". -/
theorem claim_C2_counterexample :
    ((Signal.detach (buildSignal [(false, 7), (false, 8)]) 0).get 0).owner = false ∧
    ((Signal.detach (buildSignal [(false, 7), (false, 8)]) 0).get 0).next ≠ none := by
  decide

/-- C2 (amended): after a binding is detached — by Signal.detach, by
Binding.detach, by detachAll, or by the once auto-removal (which calls
Signal.detach) — its owner reference is null, but its own next and prev
links are NOT cleared: they keep the values they had at detach time. -/
theorem claim_C2 (s : Signal) (L : List Nat) (hWF : WF s L) (i : Nat) :
    ((Signal.detach s i).get i).owner = false ∧
    ((Signal.detach s i).get i).next = (s.get i).next ∧
    ((Signal.detach s i).get i).prev = (s.get i).prev ∧
    ((SignalBindingImpl.detach s i).1.get i).owner = false ∧
    (i ∈ L → ((Signal.detachAll s).get i).owner = false ∧
      ((Signal.detachAll s).get i).next = (s.get i).next ∧
      ((Signal.detachAll s).get i).prev = (s.get i).prev) := by
  have hall : i ∈ L → ((Signal.detachAll s).get i).owner = false ∧
      ((Signal.detachAll s).get i).next = (s.get i).next ∧
      ((Signal.detachAll s).get i).prev = (s.get i).prev := by
    intro hmem
    obtain ⟨hget, _⟩ := Signal.detachAll_desc s L hWF
    rw [hget i, if_pos hmem]
    exact ⟨rfl, rfl, rfl⟩
  cases hown : (s.get i).owner with
  | false =>
    have hno := Signal.detach_noop s i hown
    have hbd : SignalBindingImpl.detach s i = (s, false) := by
      unfold SignalBindingImpl.detach
      rw [hown]
      simp
    rw [hno, hbd]
    exact ⟨hown, rfl, rfl, hown, hall⟩
  | true =>
    have hmem : i ∈ L := (hWF.ownerIff i).mp hown
    obtain ⟨A, B, hAB⟩ := List.append_of_mem hmem
    subst hAB
    obtain ⟨_, _, hgi, _⟩ := Signal.detach_desc s A i B hWF
    have hbd : SignalBindingImpl.detach s i = (Signal.detach s i, true) := by
      unfold SignalBindingImpl.detach
      rw [hown]
      simp
    rw [hbd, hgi]
    exact ⟨rfl, rfl, rfl, rfl, hall⟩

theorem claim_C2_witness :
    ((Signal.detach (buildSignal [(false, 7)]) 0).get 0).owner = false :=
  (claim_C2 (buildSignal [(false, 7)]) (List.range 1)
    (buildSignal_facts [(false, 7)]).1 0).1

/-- C3: every public operation preserves the structural invariant WF:
add / once (addBinding with either once flag) extends the invariant
list at the tail, detach and dispatch leave the state well-formed for
some list, and detachAll leaves it well-formed for the empty list.  WF
packages exactly the claimed invariant — head spells out the list
through next links ending in null with mirrored prev links (hence
acyclicity), tail is the last element, and owner is non-null exactly
for list members; the final conjunct records that under WF head and
tail are both null iff the list is empty. -/
theorem claim_C3 (s : Signal) (L : List Nat) (hWF : WF s L)
    (o : Bool) (f i fuel : Nat) (env : Nat → List Act) (wres : Bool) (args : List Nat) :
    WF (Signal.addBinding s o f).1 (L ++ [s.nodes.length]) ∧
    (∃ L2, WF (Signal.detach s i) L2) ∧
    WF (Signal.detachAll s) [] ∧
    (∃ L3, WF (Signal.dispatch env wres args fuel s).state L3) ∧
    (∀ (t : Signal) (M : List Nat), WF t M →
      ((t.head = none ∧ t.tail = none) ↔ M = [])) := by
  refine ⟨Signal.addBinding_WF s L o f hWF, (Signal.detach_stable s L hWF i).1,
    Signal.detachAll_WF s L hWF, Signal.dispatch_WF env wres args fuel s L hWF, ?_⟩
  intro t M hWFt
  constructor
  · rintro ⟨hh, _⟩
    rw [hWFt.headEq t M] at hh
    exact List.head?_eq_none_iff.mp hh
  · rintro rfl
    refine ⟨?_, ?_⟩
    · rw [hWFt.headEq t []]
      rfl
    · rw [hWFt.tailEq]
      rfl

theorem claim_C3_witness :
    WF (Signal.addBinding emptySignal false 0).1 ([] ++ [emptySignal.nodes.length]) ∧
    (∃ L2, WF (Signal.detach emptySignal 0) L2) ∧
    WF (Signal.detachAll emptySignal) [] ∧
    (∃ L3, WF (Signal.dispatch (fun _ => []) false [] 0 emptySignal).state L3) ∧
    (∀ (t : Signal) (M : List Nat), WF t M →
      ((t.head = none ∧ t.tail = none) ↔ M = [])) :=
  claim_C3 emptySignal [] WF_empty false 0 0 0 (fun _ => []) false []

/-- C4 counterexample: awaiting dispatch on an enabled AsyncSignal with
no bound handlers does NOT resolve — the shared resolver is never
invoked, so the promise stays pending and the await never returns,
refuting "silently returns (the returned promise resolves)". -/
theorem claim_C4_counterexample :
    AsyncSignal.dispatch (fun _ => []) [] 1 emptySignal
      = (emptySignal, [], AsyncOutcome.pending) ∧
    AsyncOutcome.pending ≠ AsyncOutcome.resolved := by
  exact ⟨rfl, by decide⟩

/-- C4 (amended): on an enabled AsyncSignal with no bound handlers,
dispatch invokes no handlers, but the returned promise never settles:
the executor calls the base dispatch, which returns without anyone
invoking the shared resolver, so the awaited promise remains pending
forever instead of resolving. -/
theorem claim_C4 (env : Nat → List Act) (args : List Nat) (fuel : Nat) (s : Signal)
    (he : s.enabled = true) (hh : s.head = none) :
    AsyncSignal.dispatch env args fuel s = (s, [], AsyncOutcome.pending) := by
  unfold AsyncSignal.dispatch
  have hne : ¬ (s.enabled = false) := by
    rw [he]
    simp
  rw [if_neg hne]
  rw [Signal.dispatch_eq_nohead env true args fuel s he hh]
  rfl

theorem claim_C4_witness :
    AsyncSignal.dispatch (fun _ => [Act.resolveA]) [3] 2 emptySignal
      = (emptySignal, [], AsyncOutcome.pending) :=
  claim_C4 (fun _ => [Act.resolveA]) [3] 2 emptySignal rfl rfl

/-- C5: on an enabled AsyncSignal whose handlers at most call the shared
completion callback, with at least one handler that does call it:
dispatch runs the base synchronous walk over all currently-bound
handlers — every one is invoked, in list order, each passed the shared
resolver in front of the forwarded arguments — and the awaited promise
resolves (the single shared resolver was invoked at least once),
regardless of how many handlers called it. -/
theorem claim_C5 (env : Nat → List Act) (args : List Nat) (fuel : Nat)
    (s : Signal) (L : List Nat) (hWF : WF s L) (he : s.enabled = true)
    (hres : ∀ b ∈ L, ∀ a ∈ env ((s.get b).fid), a = Act.resolveA)
    (hsome : ∃ b ∈ L, env ((s.get b).fid) ≠ [])
    (hfuel : L.length ≤ fuel) :
    (AsyncSignal.dispatch env args fuel s).2.2 = AsyncOutcome.resolved ∧
    (AsyncSignal.dispatch env args fuel s).2.1.map Event.id = L ∧
    (∀ e ∈ (AsyncSignal.dispatch env args fuel s).2.1,
      e.resolverPassed = true ∧ e.argsAtCall = args) := by
  cases hL : L with
  | nil =>
    obtain ⟨b, hb, _⟩ := hsome
    rw [hL] at hb
    exact absurd hb (by simp)
  | cons h0 L2 =>
    subst hL
    have hh : s.head = some h0 := by
      rw [hWF.headEq s (h0 :: L2)]
      rfl
    unfold AsyncSignal.dispatch
    have hne : ¬ (s.enabled = false) := by
      rw [he]
      simp
    rw [if_neg hne]
    rw [Signal.dispatch_eq_run env true args fuel s h0 he hh]
    obtain ⟨hw1, hw2, hw3⟩ := dispatchLoop_resWalk env true args (h0 :: L2) [] s fuel
      hWF hres hfuel
    have hge : 1 ≤ (dispatchLoop env true args fuel s (some h0)).resolves := by
      obtain ⟨b, hb, hbne⟩ := hsome
      have hmem : (env ((s.get b).fid)).length ∈
          (h0 :: L2).map (fun b2 => (env ((s.get b2).fid)).length) :=
        List.mem_map_of_mem _ hb
      have hle := List.single_le_sum (fun x _ => Nat.zero_le x) _ hmem
      have h1 : 1 ≤ (env ((s.get b).fid)).length := by
        cases hp : env ((s.get b).fid) with
        | nil => exact absurd hp hbne
        | cons a q => simp
      have hw3x : (dispatchLoop env true args fuel s (some h0)).resolves =
          ((h0 :: L2).map (fun b2 => (env ((s.get b2).fid)).length)).sum := hw3
      omega
    refine ⟨?_, ?_, ?_⟩
    · show (if 1 ≤ (dispatchLoop env true args fuel s (some h0)).resolves
        then AsyncOutcome.resolved
        else if (dispatchLoop env true args fuel s (some h0)).raised then
          AsyncOutcome.rejected else AsyncOutcome.pending) = AsyncOutcome.resolved
      rw [if_pos hge]
    · show (dispatchLoop env true args fuel s (some h0)).trace.map Event.id = h0 :: L2
      exact hw1
    · show ∀ e ∈ (dispatchLoop env true args fuel s (some h0)).trace, _
      intro e he2
      obtain ⟨ha1, ha2⟩ := dispatchLoop_args env true args fuel s (some h0) e he2
      exact ⟨ha2, ha1⟩

theorem claim_C5_witness :
    (AsyncSignal.dispatch (fun fid => if fid = 2 then [Act.resolveA] else []) [] 3
      (buildSignal [(false, 0), (false, 1), (false, 2)])).2.2 = AsyncOutcome.resolved :=
  (claim_C5 (fun fid => if fid = 2 then [Act.resolveA] else []) [] 3
    (buildSignal [(false, 0), (false, 1), (false, 2)]) (List.range 3)
    (buildSignal_facts [(false, 0), (false, 1), (false, 2)]).1
    (by decide) (by decide) (by decide) (by decide)).1

/-- C6: for any sequence of add / once calls on a fresh signal with no
intervening detaches, handlers() returns the bindings head-to-tail in
exact insertion order, each binding carries the handler it was
registered with, and dispatch (with handlers that mutate nothing)
invokes the bindings in that same insertion order. -/
theorem claim_C6 (specs : List (Bool × Nat)) (wres : Bool) (args : List Nat) :
    (buildSignal specs).handlers = List.range specs.length ∧
    (∀ k, (hk : k < specs.length) →
      ((buildSignal specs).get k).fid = (specs.get ⟨k, hk⟩).2) ∧
    (Signal.dispatch (fun _ => []) wres args specs.length
      (buildSignal specs)).trace.map Event.id = List.range specs.length := by
  obtain ⟨hWF, hen, _, hfields⟩ := buildSignal_facts specs
  refine ⟨Signal.handlers_eq (buildSignal specs) (List.range specs.length) hWF,
    fun k hk => (hfields k hk).2, ?_⟩
  rcases Nat.eq_zero_or_pos specs.length with hsp | hsp
  · have hh : (buildSignal specs).head = none := by
      rw [hWF.headEq (buildSignal specs) (List.range specs.length), hsp]
      rfl
    rw [Signal.dispatch_eq_nohead (fun _ => []) wres args specs.length
      (buildSignal specs) hen hh, hsp]
    rfl
  · obtain ⟨m, hm⟩ := Nat.exists_eq_succ_of_ne_zero (Nat.pos_iff_ne_zero.mp hsp)
    have hcur : (List.range specs.length).head? = some 0 := by
      rw [hm, List.range_succ_eq_map]
      rfl
    have hh : (buildSignal specs).head = some 0 := by
      rw [hWF.headEq (buildSignal specs) (List.range specs.length), hcur]
    rw [Signal.dispatch_eq_run (fun _ => []) wres args specs.length
      (buildSignal specs) 0 hen hh]
    have hw := dispatchLoop_resWalk (fun _ => []) wres args (List.range specs.length)
      [] (buildSignal specs) specs.length hWF
      (fun b _ a ha => absurd ha (by simp)) (by simp)
    rw [hcur] at hw
    exact hw.1

/-- C7: Binding.detach on an attached binding returns true and clears
the owner; a second Binding.detach on the same binding is a no-op
returning false; and on any state in which the binding's owner is
already null, Binding.detach returns false and changes nothing — so the
owner becomes null after the first call and stays null. -/
theorem claim_C7 (s : Signal) (L : List Nat) (hWF : WF s L) (i : Nat) (hmem : i ∈ L) :
    (SignalBindingImpl.detach s i).2 = true ∧
    ((SignalBindingImpl.detach s i).1.get i).owner = false ∧
    SignalBindingImpl.detach (SignalBindingImpl.detach s i).1 i
      = ((SignalBindingImpl.detach s i).1, false) ∧
    (∀ t : Signal, (t.get i).owner = false → SignalBindingImpl.detach t i = (t, false)) := by
  have hown : (s.get i).owner = true := (hWF.ownerIff i).mpr hmem
  have hnoop : ∀ t : Signal, (t.get i).owner = false →
      SignalBindingImpl.detach t i = (t, false) := by
    intro t ht
    unfold SignalBindingImpl.detach
    rw [ht]
    simp
  have hbd : SignalBindingImpl.detach s i = (Signal.detach s i, true) := by
    unfold SignalBindingImpl.detach
    rw [hown]
    simp
  obtain ⟨A, B, hAB⟩ := List.append_of_mem hmem
  subst hAB
  obtain ⟨_, _, hgi, _⟩ := Signal.detach_desc s A i B hWF
  have hof : ((Signal.detach s i).get i).owner = false := by rw [hgi]
  refine ⟨by rw [hbd], by rw [hbd]; exact hof, ?_, hnoop⟩
  rw [hbd]
  exact hnoop (Signal.detach s i) hof

theorem claim_C7_witness :
    (SignalBindingImpl.detach (buildSignal [(false, 4)]) 0).2 = true :=
  (claim_C7 (buildSignal [(false, 4)]) (List.range 1)
    (buildSignal_facts [(false, 4)]).1 0 (by decide)).1

/-- C8: when a handler raises during dispatch, the fault is not caught
by the signal: dispatch reports the exception to its caller (raised),
the invocation trace ends exactly at the faulting invocation — so no
binding after the faulting one in traversal order has its handler
invoked — and no earlier invocation threw. -/
theorem claim_C8 (env : Nat → List Act) (wres : Bool) (args : List Nat)
    (fuel : Nat) (s : Signal)
    (h : (Signal.dispatch env wres args fuel s).raised = true) :
    ∃ pre ev, (Signal.dispatch env wres args fuel s).trace = pre ++ [ev] ∧
      ev.threw = true ∧ ∀ e ∈ pre, e.threw = false := by
  by_cases he : s.enabled = false
  · rw [Signal.dispatch_eq_disabled env wres args fuel s he] at h
    exact absurd h (by simp)
  · have he2 : s.enabled = true := by
      cases hx : s.enabled with
      | false => exact absurd hx he
      | true => rfl
    cases hh : s.head with
    | none =>
      rw [Signal.dispatch_eq_nohead env wres args fuel s he2 hh] at h
      exact absurd h (by simp)
    | some h0 =>
      rw [Signal.dispatch_eq_run env wres args fuel s h0 he2 hh] at h ⊢
      exact (dispatchLoop_raised env wres args fuel s (some h0)).1 h

theorem claim_C8_witness :
    ∃ pre ev, (Signal.dispatch (fun _ => [Act.throwA]) false [] 2
      (buildSignal [(false, 0), (false, 1)])).trace = pre ++ [ev] ∧
      ev.threw = true ∧ ∀ e ∈ pre, e.threw = false :=
  claim_C8 (fun _ => [Act.throwA]) false [] 2
    (buildSignal [(false, 0), (false, 1)]) (by decide)

/-- C9: when handlers either do nothing or call detach on their own
binding during their own invocation, traversal is not truncated: every
binding of the list — in particular every binding registered strictly
after a self-detaching one — is still invoked, in list order, and
nothing is raised.  (A non-once binding's own next link survives its
detach, and for a once binding the in-handler detach is a no-op since
dispatch already detached it.) -/
theorem claim_C9 (env : Nat → List Act) (wres : Bool) (args : List Nat)
    (fuel : Nat) (s : Signal) (L : List Nat) (hWF : WF s L)
    (he : s.enabled = true)
    (henv : ∀ b ∈ L, ∀ a ∈ env ((s.get b).fid), a = Act.detachB b ∨ a = Act.detachS b)
    (hfuel : L.length ≤ fuel) :
    (Signal.dispatch env wres args fuel s).trace.map Event.id = L ∧
    (Signal.dispatch env wres args fuel s).raised = false := by
  cases hL : L with
  | nil =>
    have hh : s.head = none := by
      rw [hWF.headEq s L, hL]
      rfl
    rw [Signal.dispatch_eq_nohead env wres args fuel s he hh]
    exact ⟨rfl, rfl⟩
  | cons h0 L2 =>
    subst hL
    have hh : s.head = some h0 := by
      rw [hWF.headEq s (h0 :: L2)]
      rfl
    rw [Signal.dispatch_eq_run env wres args fuel s h0 he hh]
    exact dispatchLoop_selfWalk env wres args (h0 :: L2) [] s fuel hWF henv hfuel

theorem claim_C9_witness :
    (Signal.dispatch (fun fid => if fid = 20 then [Act.detachB 1] else [])
      false [] 3 (buildSignal [(false, 10), (false, 20), (false, 30)])).trace.map
      Event.id = List.range 3 :=
  (claim_C9 (fun fid => if fid = 20 then [Act.detachB 1] else []) false [] 3
    (buildSignal [(false, 10), (false, 20), (false, 30)]) (List.range 3)
    (buildSignal_facts [(false, 10), (false, 20), (false, 30)]).1
    (by decide) (by decide) (by decide)).1

/-- C10: when a handler calls detachAll on the dispatching signal
mid-dispatch (here: the list is P ++ f :: R, the handlers of P and R do
nothing and the handler of f calls detachAll), traversal does not stop:
every binding of the original chain is still invoked, in order, with
nothing raised, because detachAll clears each node's owner but leaves
the next links intact — and every binding after the detachAll point is
already detached at the moment it is invoked: its recorded owner is
null, hasAny() is false and handlers() is empty. -/
theorem claim_C10 (env : Nat → List Act) (wres : Bool) (args : List Nat)
    (fuel : Nat) (s : Signal) (P : List Nat) (f : Nat) (R : List Nat)
    (hWF : WF s (P ++ f :: R)) (he : s.enabled = true)
    (honce : ∀ b ∈ P ++ f :: R, (s.get b).once = false)
    (hP : ∀ b ∈ P, env ((s.get b).fid) = [])
    (hf : env ((s.get f).fid) = [Act.detachAllA])
    (hR : ∀ b ∈ R, env ((s.get b).fid) = [])
    (hfuel : (P ++ f :: R).length ≤ fuel) :
    (Signal.dispatch env wres args fuel s).trace.map Event.id = P ++ f :: R ∧
    (Signal.dispatch env wres args fuel s).raised = false ∧
    (∀ e ∈ (Signal.dispatch env wres args fuel s).trace, e.id ∈ R →
      e.ownerAtCall = false ∧ e.hasAnyAtCall = false ∧ e.handlersAtCall = []) := by
  cases hP0 : P with
  | nil =>
    subst hP0
    have hh : s.head = some f := by
      rw [hWF.headEq s ([] ++ f :: R)]
      rfl
    rw [Signal.dispatch_eq_run env wres args fuel s f he hh]
    exact dispatchLoop_detachAllWalk env wres args [] [] f R s fuel hWF honce
      (fun b hb => absurd hb (by simp)) hf hR hfuel
  | cons p P2 =>
    subst hP0
    have hh : s.head = some p := by
      rw [hWF.headEq s ((p :: P2) ++ f :: R)]
      rfl
    rw [Signal.dispatch_eq_run env wres args fuel s p he hh]
    exact dispatchLoop_detachAllWalk env wres args (p :: P2) [] f R s fuel hWF honce
      hP hf hR hfuel

theorem claim_C10_witness :
    (Signal.dispatch (fun fid => if fid = 20 then [Act.detachAllA] else [])
      false [] 3 (buildSignal [(false, 10), (false, 20), (false, 30)])).trace.map
      Event.id = [0] ++ 1 :: [2] :=
  (claim_C10 (fun fid => if fid = 20 then [Act.detachAllA] else []) false [] 3
    (buildSignal [(false, 10), (false, 20), (false, 30)]) [0] 1 [2]
    (buildSignal_facts [(false, 10), (false, 20), (false, 30)]).1
    (by decide) (by decide) (by decide) (by decide) (by decide) (by decide)).1
